import Mathlib

/-!
# Verification of the quantum-circuit simulator core

Shallow embedding of the state-vector engine and column-wise simulation
driver of the QuantumCircuitSimulator repository (`model.ts` and the
simulation module).  Machine floating-point numbers are modelled by exact
reals; JS arrays by `List`; in-place mutation by explicit state passing,
with every thrown exception modelled as an `Except.error` paired with the
state exactly as the function leaves it when it exits.
-/

namespace QSim

/-- `ComplexAmplitude`: a pair (real, imaginary), as in the source. -/
structure ComplexAmplitude where
  real : ℝ
  imaginary : ℝ

/-- Helper to build a `ComplexAmplitude` (source helper `c(real, imaginary)`). -/
def cAmp (real : ℝ) (imaginary : ℝ := 0) : ComplexAmplitude :=
  { real := real, imaginary := imaginary }

/-- Source `complexAdd`: componentwise addition. -/
def complexAdd (a b : ComplexAmplitude) : ComplexAmplitude :=
  { real := a.real + b.real, imaginary := a.imaginary + b.imaginary }

/-- Source `complexMultiply`: `(a+ib)(c+id) = (ac−bd) + i(ad+bc)`. -/
def complexMultiply (a b : ComplexAmplitude) : ComplexAmplitude :=
  { real := a.real * b.real - a.imaginary * b.imaginary
    imaginary := a.real * b.imaginary + a.imaginary * b.real }

/-- Squared magnitude `real² + imaginary²` of one amplitude, the quantity the
source accumulates as a probability (`real*real + imaginary*imaginary`). -/
def ampNormSq (a : ComplexAmplitude) : ℝ :=
  a.real * a.real + a.imaginary * a.imaginary

/-- Interpretation of a `ComplexAmplitude` as a mathematical complex number. -/
def toC (a : ComplexAmplitude) : ℂ :=
  Complex.mk a.real a.imaginary

/-- Sum of squared magnitudes over a whole amplitude array. -/
def sumSq (l : List ComplexAmplitude) : ℝ :=
  (l.map ampNormSq).sum

/-- `ComplexMatrix`: row/column counts plus a row-major data grid. -/
structure ComplexMatrix where
  rows : ℕ
  cols : ℕ
  data : List (List ComplexAmplitude)

/-- Entry access `matrix.data[r][c]` (in-range in all uses). -/
def matEntry (m : ComplexMatrix) (r c : ℕ) : ComplexAmplitude :=
  (m.data.getD r []).getD c (cAmp 0 0)

/-- `GlobalStateVector`: qubit count plus dense amplitude array. -/
structure GlobalStateVector where
  numberOfQubits : ℕ
  amplitudes : List ComplexAmplitude

/-- Hadamard gate `H`. -/
noncomputable def HadamardGate : ComplexMatrix :=
  { rows := 2, cols := 2
    data := [[cAmp (1 / Real.sqrt 2), cAmp (1 / Real.sqrt 2)],
             [cAmp (1 / Real.sqrt 2), cAmp (-1 / Real.sqrt 2)]] }

/-- Pauli-X gate. -/
def XGate : ComplexMatrix :=
  { rows := 2, cols := 2
    data := [[cAmp 0, cAmp 1], [cAmp 1, cAmp 0]] }

/-- Pauli-Y gate. -/
def YGate : ComplexMatrix :=
  { rows := 2, cols := 2
    data := [[cAmp 0, cAmp 0 (-1)], [cAmp 0 1, cAmp 0]] }

/-- Pauli-Z gate. -/
def ZGate : ComplexMatrix :=
  { rows := 2, cols := 2
    data := [[cAmp 1, cAmp 0], [cAmp 0, cAmp (-1)]] }

/-- `MeasurementResult` record returned by `measureQubit`. -/
structure MeasurementResult where
  qubitIndex : ℕ
  resultBit : ℕ
  probabilityZero : ℝ
  probabilityOne : ℝ

/-- The source tests a basis index against a bit mask with
`((index & bitMask) === 0) ? 0 : 1`. -/
def bitValueOf (index bitMask : ℕ) : ℕ :=
  if index &&& bitMask = 0 then 0 else 1

/-- The probability accumulation loop of `measureQubit`: sum of squared
magnitudes over the basis indices whose masked bit value is `b`. -/
noncomputable def probSum (amplitudes : List ComplexAmplitude)
    (dimension bitMask b : ℕ) : ℝ :=
  ∑ index ∈ (Finset.range dimension).filter (fun i => bitValueOf i bitMask = b),
    ampNormSq (amplitudes.getD index (cAmp 0 0))

/-- The collapse loop of `measureQubit`: amplitudes whose masked bit value
disagrees with `resultBit` are replaced by `(0, 0)`, the rest are kept. -/
def collapseAmps (amplitudes : List ComplexAmplitude)
    (dimension bitMask resultBit : ℕ) : List ComplexAmplitude :=
  List.ofFn (n := dimension) fun index =>
    if bitValueOf index.val bitMask ≠ resultBit then cAmp 0 0
    else amplitudes.getD index.val (cAmp 0 0)

/-- The renormalization loop of `measureQubit`: every amplitude is scaled
componentwise by `inverseNorm`. -/
def renormalizeAmps (l : List ComplexAmplitude) (inverseNorm : ℝ) :
    List ComplexAmplitude :=
  l.map fun amplitude =>
    { real := amplitude.real * inverseNorm
      imaginary := amplitude.imaginary * inverseNorm }

/--
Source `measureQubit(globalState, qubitIndex)`.  The single call to
`Math.random()` is passed in as the parameter `r`; the JS mutation of
`globalState.amplitudes` is modelled by returning the state the function
leaves behind, next to the thrown-or-returned `MeasurementResult`.
Validation (`qubitIndex` range, amplitude-array length) happens before any
write, exactly as in the source.
-/
noncomputable def measureQubit (globalState : GlobalStateVector) (qubitIndex : ℕ) (r : ℝ) :
    Except String MeasurementResult × GlobalStateVector :=
  let numberOfQubits := globalState.numberOfQubits
  let amplitudes := globalState.amplitudes
  if qubitIndex ≥ numberOfQubits then
    (.error s!"measureQubit: qubitIndex {qubitIndex} is out of range for {numberOfQubits} qubits",
     globalState)
  else
    let dimension := 2 ^ numberOfQubits
    if amplitudes.length ≠ dimension then
      (.error s!"measureQubit: amplitudes length {amplitudes.length} does not match 2^{numberOfQubits} = {dimension}",
       globalState)
    else
      let bitMask := 2 ^ qubitIndex
      -- 1) Compute P(0) and P(1)
      let probabilityZero := probSum amplitudes dimension bitMask 0
      let probabilityOne := probSum amplitudes dimension bitMask 1
      let totalProbability := probabilityZero + probabilityOne
      let safeTotal := if totalProbability = 0 then 1 else totalProbability
      let probabilityZero := probabilityZero / safeTotal
      let probabilityOne := probabilityOne / safeTotal
      -- 2) Draw random outcome
      let resultBit : ℕ := if r < probabilityZero then 0 else 1
      -- 3) Collapse: zero amplitudes inconsistent with resultBit, track norm^2
      let collapsed := collapseAmps amplitudes dimension bitMask resultBit
      let normSquared := probSum amplitudes dimension bitMask resultBit
      let norm := if normSquared = 0 then 1 else Real.sqrt normSquared
      let inverseNorm := 1 / norm
      -- 4) Renormalize remaining amplitudes
      let renormalized := renormalizeAmps collapsed inverseNorm
      (.ok { qubitIndex := qubitIndex, resultBit := resultBit
             probabilityZero := probabilityZero, probabilityOne := probabilityOne },
       { numberOfQubits := numberOfQubits, amplitudes := renormalized })

/-- The pair-update loop of `applySingleQubitGateToGlobalState` as a gather:
at an index with the qubit bit 0 the new amplitude is `m00·a0 + m01·a1`
(its partner at `index | bitMask`), at an index with the bit 1 it is
`m10·a0 + m11·a1` (its partner at `index ^^^ bitMask`, the index with the
bit cleared). -/
def gateNewAmps (amplitudes : List ComplexAmplitude) (dimension bitMask : ℕ)
    (m00 m01 m10 m11 : ComplexAmplitude) : List ComplexAmplitude :=
  List.ofFn (n := dimension) fun index =>
    if index.val &&& bitMask = 0 then
      complexAdd (complexMultiply m00 (amplitudes.getD index.val (cAmp 0 0)))
                 (complexMultiply m01 (amplitudes.getD (index.val ||| bitMask) (cAmp 0 0)))
    else
      complexAdd (complexMultiply m10 (amplitudes.getD (index.val ^^^ bitMask) (cAmp 0 0)))
                 (complexMultiply m11 (amplitudes.getD index.val (cAmp 0 0)))

/--
Source `applySingleQubitGateToGlobalState(globalState, qubitIndex, matrix)`.
The in-place pair loop visits each `(index, index | bitMask)` pair exactly
once and reads both old amplitudes of the pair before writing either (pairs
are disjoint, so no iteration reads a slot an earlier iteration wrote);
it is therefore the gather below: the new amplitude at an index with the
qubit bit 0 is `m00·a0 + m01·a1`, at an index with the bit 1 it is
`m10·a0 + m11·a1`, where `a0`/`a1` are the pair's old amplitudes.
-/
def applySingleQubitGateToGlobalState (globalState : GlobalStateVector)
    (qubitIndex : ℕ) (matrix : ComplexMatrix) :
    Except String Unit × GlobalStateVector :=
  let numberOfQubits := globalState.numberOfQubits
  let amplitudes := globalState.amplitudes
  if matrix.rows ≠ 2 ∨ matrix.cols ≠ 2 then
    (.error "applySingleQubitGateToGlobalState: matrix must be 2x2", globalState)
  else if qubitIndex ≥ numberOfQubits then
    (.error s!"applySingleQubitGateToGlobalState: qubitIndex {qubitIndex} is out of range for {numberOfQubits} qubits",
     globalState)
  else
    let dimension := 2 ^ numberOfQubits
    let bitMask := 2 ^ qubitIndex
    let m00 := matEntry matrix 0 0
    let m01 := matEntry matrix 0 1
    let m10 := matEntry matrix 1 0
    let m11 := matEntry matrix 1 1
    let newAmps := gateNewAmps amplitudes dimension bitMask m00 m01 m10 m11
    (.ok (), { numberOfQubits := numberOfQubits, amplitudes := newAmps })

/-- Destination index of the CNOT placement loop: when the control bit of
`index` is 1 the amplitude moves to `index XOR bitTarget`, else it stays. -/
def cnotDest (bitControl bitTarget index : ℕ) : ℕ :=
  if index &&& bitControl ≠ 0 then index ^^^ bitTarget else index

/--
Source `applyCNOTToGlobalState(globalState, controlQubit, targetQubit)`.
The source allocates `new Array(dimension)` and *places*
`oldAmplitudes[index]` at `cnotDest index` for each index; the fold below
performs exactly those placements (the freshly allocated slots, never read
before being written, are represented by the `cAmp 0 0` placeholder).
-/
def applyCNOTToGlobalState (globalState : GlobalStateVector)
    (controlQubit targetQubit : ℕ) :
    Except String Unit × GlobalStateVector :=
  let numberOfQubits := globalState.numberOfQubits
  let oldAmplitudes := globalState.amplitudes
  if controlQubit ≥ numberOfQubits then
    (.error s!"applyCNOTToGlobalState: controlQubit {controlQubit} is out of range for {numberOfQubits} qubits",
     globalState)
  else if targetQubit ≥ numberOfQubits then
    (.error s!"applyCNOTToGlobalState: targetQubit {targetQubit} is out of range for {numberOfQubits} qubits",
     globalState)
  else if controlQubit = targetQubit then
    (.error "applyCNOTToGlobalState: control and target must be different qubits", globalState)
  else
    let dimension := 2 ^ numberOfQubits
    let bitControl := 2 ^ controlQubit
    let bitTarget := 2 ^ targetQubit
    let newAmplitudes : List ComplexAmplitude :=
      (List.range dimension).foldl
        (fun acc index =>
          acc.set (cnotDest bitControl bitTarget index)
            (oldAmplitudes.getD index (cAmp 0 0)))
        (List.replicate dimension (cAmp 0 0))
    (.ok (), { numberOfQubits := numberOfQubits, amplitudes := newAmplitudes })

/-- `GateKind`: the closed tag set of `model.ts`. -/
inductive GateKind where
  | H | X | Y | Z | MEASURE | CNOT
  deriving DecidableEq

/-- One non-null cell of the circuit grid (`model.ts` `GateCell` minus the
`null` alternative, which is modelled by `Option`); the optional JS fields
`hasTarget?`/`targetRow?` become `Option` fields (`none` = `undefined`). -/
structure GateCell where
  kind : GateKind
  row : ℕ
  col : ℕ
  hasTarget : Option Bool := none
  targetRow : Option ℕ := none

/-- `Circuit`: qubit count, column count and the `grid[row][col]` of
optional gate cells. -/
structure Circuit where
  nQubits : ℕ
  nCols : ℕ
  grid : List (List (Option GateCell))

/-- Grid access `grid[row][col]`; an out-of-bounds JS read yields
`undefined`, which the driver's `if (!cell) continue` treats like `null`. -/
def gridCell (grid : List (List (Option GateCell))) (row col : ℕ) : Option GateCell :=
  (grid.getD row []).getD col none

/-- Source helper `getMatrixForGateKind`: `GateKind → matrix | null`. -/
noncomputable def getMatrixForGateKind (kind : GateKind) : Option ComplexMatrix :=
  if kind = .H then some HadamardGate
  else if kind = .X then some XGate
  else if kind = .Y then some YGate
  else if kind = .Z then some ZGate
  else none

/-- Source helper `cloneGlobalStateVector`: deep clone; in the value model a
clone has exactly the same value as its original. -/
def cloneGlobalStateVector (state : GlobalStateVector) : GlobalStateVector :=
  { numberOfQubits := state.numberOfQubits
    amplitudes := state.amplitudes.map fun amp =>
      { real := amp.real, imaginary := amp.imaginary } }

/-- Phase 1 of a column: apply all 1-qubit unitaries (H, X, Y, Z), rows in
increasing order. -/
noncomputable def runPhase1 (grid : List (List (Option GateCell))) (col : ℕ) :
    List ℕ → GlobalStateVector → Except String GlobalStateVector
  | [], st => .ok st
  | row :: rows, st =>
    match gridCell grid row col with
    | none => runPhase1 grid col rows st
    | some cell =>
      if cell.kind = .H ∨ cell.kind = .X ∨ cell.kind = .Y ∨ cell.kind = .Z then
        match getMatrixForGateKind cell.kind with
        | none => runPhase1 grid col rows st
        | some matrix =>
          match applySingleQubitGateToGlobalState st row matrix with
          | (.error e, _) => .error e
          | (.ok _, st') => runPhase1 grid col rows st'
      else runPhase1 grid col rows st

/-- Phase 2 of a column: apply all CNOTs whose cell has `hasTarget` truthy
and a numeric `targetRow`, rows in increasing order. -/
def runPhase2 (grid : List (List (Option GateCell))) (col : ℕ) :
    List ℕ → GlobalStateVector → Except String GlobalStateVector
  | [], st => .ok st
  | row :: rows, st =>
    match gridCell grid row col with
    | none => runPhase2 grid col rows st
    | some cell =>
      if cell.kind = .CNOT ∧ cell.hasTarget = some true then
        match cell.targetRow with
        | none => runPhase2 grid col rows st
        | some targetRow =>
          match applyCNOTToGlobalState st row targetRow with
          | (.error e, _) => .error e
          | (.ok _, st') => runPhase2 grid col rows st'
      else runPhase2 grid col rows st

/-- Phase 3 of a column: apply all MEASURE gates, rows in increasing order,
drawing `rng k` for the k-th `Math.random()` call of the run. -/
noncomputable def runPhase3 (grid : List (List (Option GateCell))) (col : ℕ) (rng : ℕ → ℝ) :
    List ℕ → GlobalStateVector → ℕ → Except String (GlobalStateVector × ℕ)
  | [], st, draws => .ok (st, draws)
  | row :: rows, st, draws =>
    match gridCell grid row col with
    | none => runPhase3 grid col rng rows st draws
    | some cell =>
      if cell.kind = .MEASURE then
        match measureQubit st row (rng draws) with
        | (.error e, _) => .error e
        | (.ok _, st') => runPhase3 grid col rng rows st' (draws + 1)
      else runPhase3 grid col rng rows st draws

/-- The column loop of `simulateCircuitByColumn`: three phases per column,
then push a deep-copied snapshot. -/
noncomputable def simulateColumns (grid : List (List (Option GateCell))) (nQubits : ℕ)
    (rng : ℕ → ℝ) :
    List ℕ → GlobalStateVector → ℕ → List GlobalStateVector →
    Except String (List GlobalStateVector)
  | [], _, _, columnStates => .ok columnStates
  | col :: cols, st, draws, columnStates =>
    match runPhase1 grid col (List.range nQubits) st with
    | .error e => .error e
    | .ok st1 =>
      match runPhase2 grid col (List.range nQubits) st1 with
      | .error e => .error e
      | .ok st2 =>
        match runPhase3 grid col rng (List.range nQubits) st2 draws with
        | .error e => .error e
        | .ok (st3, draws') =>
          simulateColumns grid nQubits rng cols st3 draws'
            (columnStates ++ [cloneGlobalStateVector st3])

/--
Source `simulateCircuitByColumn(circuit, initialState)`.  Columns run left
to right; each column applies phase 1 (1-qubit unitaries), phase 2 (CNOTs),
phase 3 (measurements), then appends a deep copy of the current state.  The
run starts from a deep copy of the caller's `initialState`.  The stream of
`Math.random()` draws is passed in as `rng`; an engine error aborts the run.
-/
noncomputable def simulateCircuitByColumn (circuit : Circuit)
    (initialState : GlobalStateVector) (rng : ℕ → ℝ) :
    Except String (List GlobalStateVector) :=
  simulateColumns circuit.grid circuit.nQubits rng (List.range circuit.nCols)
    (cloneGlobalStateVector initialState) 0 []

/-- One per-qubit Bloch-angle input `{ theta, phi }`. -/
structure QubitInput where
  theta : ℝ
  phi : ℝ

/-- Bit `q` of a basis index, as the source computes it: `((index >> q) & 1)`. -/
def bitAt (index q : ℕ) : ℕ :=
  (index >>> q) &&& 1

/-- The `alpha`/`beta` pair the builder computes for one qubit from its
Bloch angles: `alpha = (cos(theta/2), 0)`,
`beta = (sin(theta/2)·cos(phi), sin(theta/2)·sin(phi))`. -/
noncomputable def localQubitState (input : QubitInput) :
    ComplexAmplitude × ComplexAmplitude :=
  let theta := input.theta
  let phi := input.phi
  let alpha : ComplexAmplitude := { real := Real.cos (theta / 2), imaginary := 0 }
  let betaMag := Real.sin (theta / 2)
  let beta : ComplexAmplitude :=
    { real := betaMag * Real.cos phi, imaginary := betaMag * Real.sin phi }
  (alpha, beta)

/--
Source `buildInitialGlobalStateFromInputs(nQubits, qubitInputs)` (`model.ts`):
per-qubit local states (missing inputs default to `theta=0, phi=0`), then
amplitude at each basis index is the left-fold product over qubits `q` of
`alpha` when bit `q` of the index is 0, else `beta`.
-/
noncomputable def buildInitialGlobalStateFromInputs (nQubits : ℕ)
    (qubitInputs : List QubitInput) : GlobalStateVector :=
  let dimension := 2 ^ nQubits
  let localStates : List (ComplexAmplitude × ComplexAmplitude) :=
    List.ofFn (n := nQubits) fun q =>
      localQubitState (qubitInputs.getD q.val { theta := 0, phi := 0 })
  let amplitudes : List ComplexAmplitude :=
    List.ofFn (n := dimension) fun index =>
      (List.range nQubits).foldl
        (fun amp q =>
          let factors := localStates.getD q (cAmp 1 0, cAmp 0 0)
          complexMultiply amp (if bitAt index.val q = 0 then factors.1 else factors.2))
        (cAmp 1 0)
  { numberOfQubits := nQubits, amplitudes := amplitudes }

/-! ## Basic algebra of the embedded complex arithmetic -/

theorem toC_complexAdd (a b : ComplexAmplitude) :
    toC (complexAdd a b) = toC a + toC b := by
  simp [toC, complexAdd, Complex.ext_iff]

theorem toC_complexMultiply (a b : ComplexAmplitude) :
    toC (complexMultiply a b) = toC a * toC b := by
  simp [toC, complexMultiply, Complex.ext_iff, Complex.mul_re, Complex.mul_im]

theorem ampNormSq_eq_normSq_toC (a : ComplexAmplitude) :
    ampNormSq a = Complex.normSq (toC a) := by
  simp [ampNormSq, toC, Complex.normSq_mk]

theorem ampNormSq_nonneg (a : ComplexAmplitude) : 0 ≤ ampNormSq a := by
  have h1 : 0 ≤ a.real * a.real := mul_self_nonneg _
  have h2 : 0 ≤ a.imaginary * a.imaginary := mul_self_nonneg _
  simpa [ampNormSq] using add_nonneg h1 h2

theorem ampNormSq_complexMultiply (a b : ComplexAmplitude) :
    ampNormSq (complexMultiply a b) = ampNormSq a * ampNormSq b := by
  simp only [ampNormSq, complexMultiply]
  ring

/-- `sumSq` as a `Finset.range` sum over positions, via `getD`. -/
theorem sumSq_eq_sum_range (l : List ComplexAmplitude) :
    sumSq l = ∑ i ∈ Finset.range l.length, ampNormSq (l.getD i (cAmp 0 0)) := by
  induction l with
  | nil => simp [sumSq]
  | cons a t ih =>
    have hcons : sumSq (a :: t) = ampNormSq a + sumSq t := by
      simp [sumSq]
    rw [hcons, ih, List.length_cons, Finset.sum_range_succ']
    simp [add_comm]

theorem bitValueOf_eq_one_iff (i m : ℕ) :
    bitValueOf i m = 1 ↔ ¬ bitValueOf i m = 0 := by
  unfold bitValueOf
  split <;> simp

theorem probSum_nonneg (amplitudes : List ComplexAmplitude) (dimension bitMask b : ℕ) :
    0 ≤ probSum amplitudes dimension bitMask b :=
  Finset.sum_nonneg fun _ _ => ampNormSq_nonneg _

/-- The two probability accumulators of `measureQubit` together sweep the
whole array: `P0 + P1` is the total probability. -/
theorem probSum_zero_add_one (amplitudes : List ComplexAmplitude) (dimension bitMask : ℕ) :
    probSum amplitudes dimension bitMask 0 + probSum amplitudes dimension bitMask 1 =
      ∑ index ∈ Finset.range dimension, ampNormSq (amplitudes.getD index (cAmp 0 0)) := by
  unfold probSum
  rw [Finset.filter_congr (fun i _ => bitValueOf_eq_one_iff i bitMask)]
  exact Finset.sum_filter_add_sum_filter_not _ _ _

/--
C10: each engine operation (`applySingleQubitGateToGlobalState`,
`applyCNOTToGlobalState`, `measureQubit`) performs all of its validation
before any mutation, so whenever it exits with a thrown error the state is
exactly the state that was passed in.
-/
theorem engine_ops_atomic_on_error :
    (∀ (s : GlobalStateVector) (q : ℕ) (m : ComplexMatrix) (e : String),
        (applySingleQubitGateToGlobalState s q m).1 = .error e →
        (applySingleQubitGateToGlobalState s q m).2 = s) ∧
    (∀ (s : GlobalStateVector) (c t : ℕ) (e : String),
        (applyCNOTToGlobalState s c t).1 = .error e →
        (applyCNOTToGlobalState s c t).2 = s) ∧
    (∀ (s : GlobalStateVector) (q : ℕ) (r : ℝ) (e : String),
        (measureQubit s q r).1 = .error e →
        (measureQubit s q r).2 = s) := by
  refine ⟨?_, ?_, ?_⟩
  · intro s q m e h
    simp only [applySingleQubitGateToGlobalState] at h ⊢
    split_ifs at h ⊢ <;> simp_all
  · intro s c t e h
    simp only [applyCNOTToGlobalState] at h ⊢
    split_ifs at h ⊢ <;> simp_all
  · intro s q r e h
    simp only [measureQubit] at h ⊢
    split_ifs at h ⊢ <;> simp_all

/-- Witness for C10: concrete error calls (out-of-range qubit for the gate,
control = target for the CNOT, out-of-range qubit for the measurement) all
leave the state untouched. -/
theorem engine_ops_atomic_on_error_witness :
    (applySingleQubitGateToGlobalState ⟨1, [cAmp 1, cAmp 0]⟩ 5 XGate).2 =
      (⟨1, [cAmp 1, cAmp 0]⟩ : GlobalStateVector) ∧
    (applyCNOTToGlobalState ⟨1, [cAmp 1, cAmp 0]⟩ 0 0).2 =
      (⟨1, [cAmp 1, cAmp 0]⟩ : GlobalStateVector) ∧
    (measureQubit ⟨1, [cAmp 1, cAmp 0]⟩ 3 0).2 =
      (⟨1, [cAmp 1, cAmp 0]⟩ : GlobalStateVector) :=
  ⟨engine_ops_atomic_on_error.1 _ 5 XGate
      "applySingleQubitGateToGlobalState: qubitIndex 5 is out of range for 1 qubits" (by rfl),
   engine_ops_atomic_on_error.2.1 _ 0 0
      "applyCNOTToGlobalState: control and target must be different qubits" (by rfl),
   engine_ops_atomic_on_error.2.2 _ 3 0
      "measureQubit: qubitIndex 3 is out of range for 1 qubits" (by rfl)⟩

/--
C1 (amended): when the total probability of the state is exactly 0,
`measureQubit` normalizes against a safe total of 1, so it returns
`probabilityZero = 0`, `probabilityOne = 0`, and — since a `Math.random()`
draw `r ≥ 0` is never `< 0` — the deterministic outcome `resultBit = 1`.
-/
theorem measureQubit_zero_total (s : GlobalStateVector) (q : ℕ) (r : ℝ)
    (hq : q < s.numberOfQubits)
    (hlen : s.amplitudes.length = 2 ^ s.numberOfQubits)
    (hzero : sumSq s.amplitudes = 0) (hr : 0 ≤ r) :
    (measureQubit s q r).1 =
      .ok { qubitIndex := q, resultBit := 1, probabilityZero := 0, probabilityOne := 0 } := by
  have hn : ¬ q ≥ s.numberOfQubits := not_le.mpr hq
  have htotal : probSum s.amplitudes (2 ^ s.numberOfQubits) (2 ^ q) 0 +
      probSum s.amplitudes (2 ^ s.numberOfQubits) (2 ^ q) 1 = 0 := by
    rw [probSum_zero_add_one]
    rw [sumSq_eq_sum_range, hlen] at hzero
    exact hzero
  have h0 : probSum s.amplitudes (2 ^ s.numberOfQubits) (2 ^ q) 0 = 0 := by
    have := probSum_nonneg s.amplitudes (2 ^ s.numberOfQubits) (2 ^ q) 0
    have := probSum_nonneg s.amplitudes (2 ^ s.numberOfQubits) (2 ^ q) 1
    linarith
  have h1 : probSum s.amplitudes (2 ^ s.numberOfQubits) (2 ^ q) 1 = 0 := by
    have := probSum_nonneg s.amplitudes (2 ^ s.numberOfQubits) (2 ^ q) 0
    have := probSum_nonneg s.amplitudes (2 ^ s.numberOfQubits) (2 ^ q) 1
    linarith
  simp only [measureQubit, hn, if_false, hlen, ite_not]
  simp [h0, h1, not_lt.mpr hr]

/-- Witness for C1's amended theorem: the all-zero one-qubit state measured
with draw `r = 0` yields `P0 = 0`, `P1 = 0`, `resultBit = 1`. -/
theorem measureQubit_zero_total_witness :
    (measureQubit ⟨1, [cAmp 0, cAmp 0]⟩ 0 0).1 =
      .ok { qubitIndex := 0, resultBit := 1, probabilityZero := 0, probabilityOne := 0 } :=
  measureQubit_zero_total ⟨1, [cAmp 0, cAmp 0]⟩ 0 0 (by decide) (by rfl)
    (by simp [sumSq, ampNormSq, cAmp]) le_rfl

/--
Counterexample to C1 as stated: on the all-zero one-qubit state with draw
`r = 0 ∈ [0,1)`, `measureQubit` returns `probabilityZero = 0` (not 1) and
`resultBit = 1` (not 0).
-/
theorem measureQubit_zero_total_claim_false :
    ((measureQubit ⟨1, [cAmp 0, cAmp 0]⟩ 0 0).1 =
      .ok { qubitIndex := 0, resultBit := 1, probabilityZero := 0, probabilityOne := 0 }) ∧
    (1 : ℕ) ≠ 0 ∧ (0 : ℝ) ≠ 1 := by
  refine ⟨?_, by decide, by norm_num⟩
  have hzero : sumSq (⟨1, [cAmp 0, cAmp 0]⟩ : GlobalStateVector).amplitudes = 0 := by
    simp [sumSq, ampNormSq, cAmp]
  have h0 : probSum [cAmp 0, cAmp 0] 2 1 0 = 0 := by
    simp [probSum, ampNormSq, cAmp, Finset.sum_filter, Finset.sum_range_succ]
  have h1 : probSum [cAmp 0, cAmp 0] 2 1 1 = 0 := by
    simp [probSum, ampNormSq, cAmp, Finset.sum_filter, Finset.sum_range_succ]
  simp only [measureQubit]
  norm_num [h0, h1]

/-! ## C2: which malformed CNOT cells are skipped -/

/-- A CNOT cell the driver's phase-2 guard skips: `hasTarget` not truthy, or
`targetRow` missing.  Such a cell is replaced by an empty cell; all other
cells are kept. -/
def eraseDanglingCNOT (cell? : Option GateCell) : Option GateCell :=
  match cell? with
  | none => none
  | some cell =>
    if cell.kind = .CNOT ∧ ¬(cell.hasTarget = some true ∧ cell.targetRow ≠ none) then
      none
    else
      some cell

theorem gridCell_eraseDanglingCNOT (grid : List (List (Option GateCell))) (row col : ℕ) :
    gridCell (grid.map (List.map eraseDanglingCNOT)) row col =
      eraseDanglingCNOT (gridCell grid row col) := by
  unfold gridCell
  simp only [List.getD_eq_getElem?_getD, List.getElem?_map]
  rcases grid[row]? with _ | l
  · simp [eraseDanglingCNOT]
  · simp only [Option.map_some', Option.getD_some, List.getElem?_map]
    rcases l[col]? with _ | cell
    · simp [eraseDanglingCNOT]
    · simp

theorem runPhase1_eraseDanglingCNOT (grid : List (List (Option GateCell))) (col : ℕ)
    (rows : List ℕ) (st : GlobalStateVector) :
    runPhase1 (grid.map (List.map eraseDanglingCNOT)) col rows st =
      runPhase1 grid col rows st := by
  induction rows generalizing st with
  | nil => rfl
  | cons row rows ih =>
    rw [runPhase1, runPhase1, gridCell_eraseDanglingCNOT]
    rcases hcell : gridCell grid row col with _ | cell
    · exact ih st
    · by_cases hdangling :
        cell.kind = .CNOT ∧ ¬(cell.hasTarget = some true ∧ cell.targetRow ≠ none)
      · rw [eraseDanglingCNOT, if_pos hdangling]
        have hnotunitary :
            ¬(cell.kind = .H ∨ cell.kind = .X ∨ cell.kind = .Y ∨ cell.kind = .Z) := by
          rw [hdangling.1]
          simp
        dsimp only
        rw [if_neg hnotunitary]
        exact ih st
      · rw [eraseDanglingCNOT, if_neg hdangling]
        dsimp only
        by_cases hu : cell.kind = .H ∨ cell.kind = .X ∨ cell.kind = .Y ∨ cell.kind = .Z
        · rw [if_pos hu, if_pos hu]
          rcases hmat : getMatrixForGateKind cell.kind with _ | matrix
          · exact ih st
          · dsimp only
            rcases happ : applySingleQubitGateToGlobalState st row matrix with ⟨e | u, st2⟩
            · rfl
            · exact ih st2
        · rw [if_neg hu, if_neg hu]
          exact ih st

theorem runPhase2_eraseDanglingCNOT (grid : List (List (Option GateCell))) (col : ℕ)
    (rows : List ℕ) (st : GlobalStateVector) :
    runPhase2 (grid.map (List.map eraseDanglingCNOT)) col rows st =
      runPhase2 grid col rows st := by
  induction rows generalizing st with
  | nil => rfl
  | cons row rows ih =>
    rw [runPhase2, runPhase2, gridCell_eraseDanglingCNOT]
    rcases hcell : gridCell grid row col with _ | cell
    · exact ih st
    · by_cases hdangling :
        cell.kind = .CNOT ∧ ¬(cell.hasTarget = some true ∧ cell.targetRow ≠ none)
      · rw [eraseDanglingCNOT, if_pos hdangling]
        dsimp only
        by_cases hc : cell.kind = .CNOT ∧ cell.hasTarget = some true
        · have htr : cell.targetRow = none := by
            rcases hdangling with ⟨-, hnt⟩
            by_contra hne
            exact hnt ⟨hc.2, hne⟩
          rw [if_pos hc, htr]
          exact ih st
        · rw [if_neg hc]
          exact ih st
      · rw [eraseDanglingCNOT, if_neg hdangling]
        dsimp only
        by_cases hc : cell.kind = .CNOT ∧ cell.hasTarget = some true
        · rw [if_pos hc, if_pos hc]
          rcases htr : cell.targetRow with _ | targetRow
          · exact ih st
          · dsimp only
            rcases happ : applyCNOTToGlobalState st row targetRow with ⟨e | u, st2⟩
            · rfl
            · exact ih st2
        · rw [if_neg hc, if_neg hc]
          exact ih st

theorem runPhase3_eraseDanglingCNOT (grid : List (List (Option GateCell))) (col : ℕ)
    (rng : ℕ → ℝ) (rows : List ℕ) (st : GlobalStateVector) (draws : ℕ) :
    runPhase3 (grid.map (List.map eraseDanglingCNOT)) col rng rows st draws =
      runPhase3 grid col rng rows st draws := by
  induction rows generalizing st draws with
  | nil => rfl
  | cons row rows ih =>
    rw [runPhase3, runPhase3, gridCell_eraseDanglingCNOT]
    rcases hcell : gridCell grid row col with _ | cell
    · exact ih st draws
    · by_cases hdangling :
        cell.kind = .CNOT ∧ ¬(cell.hasTarget = some true ∧ cell.targetRow ≠ none)
      · rw [eraseDanglingCNOT, if_pos hdangling]
        have hm : ¬ cell.kind = .MEASURE := by
          rw [hdangling.1]
          simp
        dsimp only
        rw [if_neg hm]
        exact ih st draws
      · rw [eraseDanglingCNOT, if_neg hdangling]
        dsimp only
        by_cases hm : cell.kind = .MEASURE
        · rw [if_pos hm, if_pos hm]
          rcases hmeas : measureQubit st row (rng draws) with ⟨e | res, st2⟩
          · rfl
          · exact ih st2 (draws + 1)
        · rw [if_neg hm, if_neg hm]
          exact ih st draws

/--
C2 (amended): a CNOT cell whose `hasTarget` is not `true` or whose
`targetRow` is missing is silently skipped by `simulateCircuitByColumn` —
erasing every such cell from the grid changes nothing about the run.  (A
CNOT cell *with* a numeric `targetRow` that is out of range or equal to the
control row is NOT skipped: `applyCNOTToGlobalState` throws and the run
aborts; see the counterexample.)
-/
theorem simulate_skips_dangling_cnot (circuit : Circuit)
    (initialState : GlobalStateVector) (rng : ℕ → ℝ) :
    simulateCircuitByColumn
        { circuit with grid := circuit.grid.map (List.map eraseDanglingCNOT) }
        initialState rng =
      simulateCircuitByColumn circuit initialState rng := by
  unfold simulateCircuitByColumn
  dsimp only
  generalize List.range circuit.nCols = cols
  generalize cloneGlobalStateVector initialState = st
  generalize (0 : ℕ) = draws
  generalize ([] : List GlobalStateVector) = acc
  induction cols generalizing st draws acc with
  | nil => rfl
  | cons col cols ih =>
    rw [simulateColumns, simulateColumns, runPhase1_eraseDanglingCNOT]
    rcases h1 : runPhase1 circuit.grid col (List.range circuit.nQubits) st with e | st1
    · rfl
    · dsimp only
      rw [runPhase2_eraseDanglingCNOT]
      rcases h2 : runPhase2 circuit.grid col (List.range circuit.nQubits) st1 with e | st2
      · rfl
      · dsimp only
        rw [runPhase3_eraseDanglingCNOT]
        rcases h3 : runPhase3 circuit.grid col rng (List.range circuit.nQubits) st2 draws with
          e | ⟨st3, dr⟩
        · rfl
        · dsimp only
          exact ih st3 dr _

/--
Counterexample to C2 as stated: a CNOT cell with `hasTarget = true` and
`targetRow` equal to its own control row is not skipped —
`applyCNOTToGlobalState` throws and `simulateCircuitByColumn` aborts with
that error.
-/
theorem simulate_cnot_self_target_errors :
    simulateCircuitByColumn
        { nQubits := 2, nCols := 1
          grid := [[some { kind := .CNOT, row := 0, col := 0
                           hasTarget := some true, targetRow := some 0 }],
                   [none]] }
        ⟨2, [cAmp 1, cAmp 0, cAmp 0, cAmp 0]⟩ (fun _ => 0) =
      .error "applyCNOTToGlobalState: control and target must be different qubits" := by
  rfl

/-! ## C5: CNOT is an exact involution on the amplitude array -/

theorem and_two_pow_ne_zero_iff (i c : ℕ) :
    i &&& 2 ^ c ≠ 0 ↔ i.testBit c = true := by
  rw [Nat.and_two_pow]
  rcases h : i.testBit c <;> simp [h]

/-- XOR with the target mask does not change the control bit (`c ≠ t`). -/
theorem xor_target_preserves_control (i c t : ℕ) (hct : c ≠ t) :
    (i ^^^ 2 ^ t) &&& 2 ^ c = i &&& 2 ^ c := by
  rw [Nat.and_two_pow, Nat.and_two_pow, Nat.testBit_xor,
    Nat.testBit_two_pow_of_ne (Ne.symm hct)]
  rcases h : i.testBit c <;> simp [h]

/-- The CNOT destination map is an involution when control ≠ target. -/
theorem cnotDest_involutive (c t : ℕ) (hct : c ≠ t) (i : ℕ) :
    cnotDest (2 ^ c) (2 ^ t) (cnotDest (2 ^ c) (2 ^ t) i) = i := by
  unfold cnotDest
  by_cases h : i &&& 2 ^ c ≠ 0
  · rw [if_pos h, if_pos (by rw [xor_target_preserves_control i c t hct]; exact h),
      Nat.xor_cancel_right]
  · rw [if_neg h, if_neg h]

/-- The CNOT destination map stays inside the dimension. -/
theorem cnotDest_lt (c t n : ℕ) (ht : t < n) (i : ℕ) (hi : i < 2 ^ n) :
    cnotDest (2 ^ c) (2 ^ t) i < 2 ^ n := by
  unfold cnotDest
  split
  · exact Nat.xor_lt_two_pow hi (Nat.pow_lt_pow_right one_lt_two ht)
  · exact hi

/-- Scatter loops (`a.set (dest i) (old[i])` over a list of indices) keep the
accumulator length. -/
theorem foldl_scatter_length (old : List ComplexAmplitude) (dest : ℕ → ℕ)
    (l : List ℕ) (acc : List ComplexAmplitude) :
    (l.foldl (fun a i => a.set (dest i) (old.getD i (cAmp 0 0))) acc).length =
      acc.length := by
  induction l generalizing acc with
  | nil => rfl
  | cons i l ih => rw [List.foldl_cons, ih, List.length_set]

/-- Characterization of the scatter loop for an involutive destination map:
the slot `j` of the result holds `old[dest j]` as soon as `dest j` was among
the processed indices. -/
theorem foldl_scatter_getD (old : List ComplexAmplitude) (dest : ℕ → ℕ)
    (hdest : ∀ i, dest (dest i) = i) (l : List ℕ) (acc : List ComplexAmplitude)
    (j : ℕ) (hj : j < acc.length) :
    (l.foldl (fun a i => a.set (dest i) (old.getD i (cAmp 0 0))) acc).getD j (cAmp 0 0) =
      if dest j ∈ l then old.getD (dest j) (cAmp 0 0) else acc.getD j (cAmp 0 0) := by
  induction l generalizing acc with
  | nil => simp
  | cons i l ih =>
    rw [List.foldl_cons, ih (acc.set (dest i) (old.getD i (cAmp 0 0)))
      (by rw [List.length_set]; exact hj)]
    by_cases hmem : dest j ∈ l
    · simp [hmem, List.mem_cons]
    · by_cases hij : dest i = j
      · have hji : dest j = i := by rw [← hij, hdest]
        have hmem2 : dest j ∈ i :: l := by rw [hji]; exact List.mem_cons_self i l
        rw [if_neg hmem, if_pos hmem2, List.getD_eq_getElem?_getD, hij,
          List.getElem?_set_eq_of_lt (h := hj), Option.getD_some, hji]
      · have hji : dest j ≠ i := fun h => hij (by rw [← h, hdest])
        have hmem2 : dest j ∉ i :: l := by
          rw [List.mem_cons]
          push_neg
          exact ⟨hji, hmem⟩
        rw [if_neg hmem, if_neg hmem2, List.getD_eq_getElem?_getD,
          List.getElem?_set_ne hij, ← List.getD_eq_getElem?_getD]

/-- On a valid call (distinct in-range qubits, consistent array length) the
CNOT succeeds, keeps the qubit count, keeps the array length, and its new
array reads `old[cnotDest j]` at every slot `j`. -/
theorem applyCNOT_ok_spec (s : GlobalStateVector) (c t : ℕ)
    (hc : c < s.numberOfQubits) (ht : t < s.numberOfQubits) (hct : c ≠ t)
    (hlen : s.amplitudes.length = 2 ^ s.numberOfQubits) :
    (applyCNOTToGlobalState s c t).1 = .ok () ∧
    (applyCNOTToGlobalState s c t).2.numberOfQubits = s.numberOfQubits ∧
    (applyCNOTToGlobalState s c t).2.amplitudes.length = 2 ^ s.numberOfQubits ∧
    ∀ j < 2 ^ s.numberOfQubits,
      (applyCNOTToGlobalState s c t).2.amplitudes.getD j (cAmp 0 0) =
        s.amplitudes.getD (cnotDest (2 ^ c) (2 ^ t) j) (cAmp 0 0) := by
  have hcn : ¬ c ≥ s.numberOfQubits := not_le.mpr hc
  have htn : ¬ t ≥ s.numberOfQubits := not_le.mpr ht
  simp only [applyCNOTToGlobalState, hcn, htn, hct, if_false]
  refine ⟨trivial, trivial, ?_, ?_⟩
  · rw [foldl_scatter_length, List.length_replicate]
  · intro j hj
    rw [foldl_scatter_getD _ _ (cnotDest_involutive c t hct) _ _ j
      (by rw [List.length_replicate]; exact hj)]
    rw [if_pos (by rw [List.mem_range]; exact cnotDest_lt c t _ ht j hj)]

/--
C5: applying `applyCNOTToGlobalState` twice with the same distinct in-range
control and target restores the original amplitude array exactly, value for
value — CNOT is a pure permutation of basis indices with no arithmetic.
-/
theorem applyCNOT_twice_restores (s : GlobalStateVector) (c t : ℕ)
    (hc : c < s.numberOfQubits) (ht : t < s.numberOfQubits) (hct : c ≠ t)
    (hlen : s.amplitudes.length = 2 ^ s.numberOfQubits) :
    (applyCNOTToGlobalState (applyCNOTToGlobalState s c t).2 c t).2.amplitudes =
      s.amplitudes := by
  obtain ⟨-, hn1, hl1, hget1⟩ := applyCNOT_ok_spec s c t hc ht hct hlen
  obtain ⟨-, hn2, hl2, hget2⟩ := applyCNOT_ok_spec (applyCNOTToGlobalState s c t).2 c t
    (hn1 ▸ hc) (hn1 ▸ ht) hct (hn1 ▸ hl1)
  rw [hn1] at hl2 hget2
  apply List.ext_getElem (by rw [hl2, hlen])
  intro j h1 h2
  have hj : j < 2 ^ s.numberOfQubits := by rw [← hl2]; exact h1
  have step2 := hget2 j hj
  have step1 := hget1 (cnotDest (2 ^ c) (2 ^ t) j) (cnotDest_lt c t _ ht j hj)
  rw [step1, cnotDest_involutive c t hct] at step2
  rw [List.getD_eq_getElem _ _ h1, List.getD_eq_getElem _ _ h2] at step2
  exact step2

/-- Witness for C5: a concrete 2-qubit state is restored exactly by two
CNOTs with control 0 and target 1. -/
theorem applyCNOT_twice_restores_witness :
    (applyCNOTToGlobalState
        (applyCNOTToGlobalState ⟨2, [cAmp 1, cAmp 0, cAmp 0, cAmp 0]⟩ 0 1).2 0 1).2.amplitudes =
      [cAmp 1, cAmp 0, cAmp 0, cAmp 0] :=
  applyCNOT_twice_restores ⟨2, [cAmp 1, cAmp 0, cAmp 0, cAmp 0]⟩ 0 1
    (by decide) (by decide) (by decide) (by rfl)

/-! ## C3: measurement collapses exactly -/

theorem length_collapseAmps (amplitudes : List ComplexAmplitude) (d m b : ℕ) :
    (collapseAmps amplitudes d m b).length = d := by
  simp [collapseAmps]

theorem getD_collapseAmps (amplitudes : List ComplexAmplitude) (d m b j : ℕ)
    (hj : j < d) :
    (collapseAmps amplitudes d m b).getD j (cAmp 0 0) =
      if bitValueOf j m ≠ b then cAmp 0 0 else amplitudes.getD j (cAmp 0 0) := by
  simp [collapseAmps, List.getD_eq_getElem?_getD, List.getElem?_ofFn, hj]

theorem length_renormalizeAmps (l : List ComplexAmplitude) (k : ℝ) :
    (renormalizeAmps l k).length = l.length := by
  simp [renormalizeAmps]

theorem getD_renormalizeAmps (l : List ComplexAmplitude) (k : ℝ) (j : ℕ)
    (hj : j < l.length) :
    (renormalizeAmps l k).getD j (cAmp 0 0) =
      { real := (l.getD j (cAmp 0 0)).real * k
        imaginary := (l.getD j (cAmp 0 0)).imaginary * k } := by
  simp [renormalizeAmps, List.getD_eq_getElem?_getD, List.getElem?_map,
    List.getElem?_eq_getElem hj]

theorem sumSq_renormalizeAmps (l : List ComplexAmplitude) (k : ℝ) :
    sumSq (renormalizeAmps l k) = k * k * sumSq l := by
  induction l with
  | nil => simp [sumSq, renormalizeAmps]
  | cons a t ih =>
    have h1 : sumSq (renormalizeAmps (a :: t) k) =
        ampNormSq { real := a.real * k, imaginary := a.imaginary * k } +
          sumSq (renormalizeAmps t k) := by
      simp [sumSq, renormalizeAmps]
    have h2 : sumSq (a :: t) = ampNormSq a + sumSq t := by
      simp [sumSq]
    rw [h1, h2, ih, ampNormSq, ampNormSq]
    ring

theorem sumSq_collapseAmps (amplitudes : List ComplexAmplitude) (d m b : ℕ) :
    sumSq (collapseAmps amplitudes d m b) = probSum amplitudes d m b := by
  rw [sumSq_eq_sum_range, length_collapseAmps, probSum, Finset.sum_filter]
  refine Finset.sum_congr rfl fun j hj => ?_
  rw [getD_collapseAmps amplitudes d m b j (Finset.mem_range.mp hj)]
  by_cases hb : bitValueOf j m = b
  · rw [if_neg (by simpa using hb), if_pos hb]
  · rw [if_pos hb, if_neg hb]
    simp [ampNormSq, cAmp]

/-- On a valid call (`qubitIndex` in range, consistent array length)
`measureQubit` takes its success path; this spells that path out once, in
terms of `probSum`, `collapseAmps` and `renormalizeAmps`. -/
theorem measureQubit_ok_eq (s : GlobalStateVector) (q : ℕ) (r : ℝ)
    (hq : q < s.numberOfQubits)
    (hlen : s.amplitudes.length = 2 ^ s.numberOfQubits) :
    measureQubit s q r =
      (let dimension := 2 ^ s.numberOfQubits
       let bitMask := 2 ^ q
       let P0 := probSum s.amplitudes dimension bitMask 0
       let P1 := probSum s.amplitudes dimension bitMask 1
       let safeTotal := if P0 + P1 = 0 then 1 else P0 + P1
       let resultBit : ℕ := if r < P0 / safeTotal then 0 else 1
       let normSquared := probSum s.amplitudes dimension bitMask resultBit
       let inverseNorm := 1 / (if normSquared = 0 then 1 else Real.sqrt normSquared)
       (.ok { qubitIndex := q, resultBit := resultBit
              probabilityZero := P0 / safeTotal, probabilityOne := P1 / safeTotal },
        { numberOfQubits := s.numberOfQubits
          amplitudes :=
            renormalizeAmps (collapseAmps s.amplitudes dimension bitMask resultBit)
              inverseNorm })) := by
  have hn : ¬ q ≥ s.numberOfQubits := not_le.mpr hq
  simp only [measureQubit, hn, if_false, hlen, ite_not, if_pos rfl, if_true]

/--
C3: after a valid `measureQubit` call returns outcome `b`, every amplitude
whose basis index has bit `q` different from `b` is exactly `(0, 0)`, and —
when the surviving squared norm is nonzero — the sum of squared magnitudes
of the post-measurement array is exactly 1 (over exact reals).
-/
theorem measureQubit_collapses (s : GlobalStateVector) (q : ℕ) (r : ℝ)
    (hq : q < s.numberOfQubits)
    (hlen : s.amplitudes.length = 2 ^ s.numberOfQubits) :
    ∃ m : MeasurementResult,
      (measureQubit s q r).1 = .ok m ∧
      (∀ j < 2 ^ s.numberOfQubits, bitValueOf j (2 ^ q) ≠ m.resultBit →
        (measureQubit s q r).2.amplitudes.getD j (cAmp 0 0) = cAmp 0 0) ∧
      (probSum s.amplitudes (2 ^ s.numberOfQubits) (2 ^ q) m.resultBit ≠ 0 →
        sumSq (measureQubit s q r).2.amplitudes = 1) := by
  rw [measureQubit_ok_eq s q r hq hlen]
  refine ⟨_, rfl, ?_, ?_⟩
  · intro j hj hbit
    dsimp only at hbit ⊢
    rw [getD_renormalizeAmps _ _ j (by rw [length_collapseAmps]; exact hj),
      getD_collapseAmps _ _ _ _ j hj, if_pos hbit]
    simp [cAmp]
  · intro hns
    dsimp only at hns ⊢
    rw [sumSq_renormalizeAmps, sumSq_collapseAmps, if_neg hns]
    have hpos : 0 < probSum s.amplitudes (2 ^ s.numberOfQubits) (2 ^ q)
        (if r < probSum s.amplitudes (2 ^ s.numberOfQubits) (2 ^ q) 0 /
            (if probSum s.amplitudes (2 ^ s.numberOfQubits) (2 ^ q) 0 +
                probSum s.amplitudes (2 ^ s.numberOfQubits) (2 ^ q) 1 = 0 then 1
             else probSum s.amplitudes (2 ^ s.numberOfQubits) (2 ^ q) 0 +
                probSum s.amplitudes (2 ^ s.numberOfQubits) (2 ^ q) 1)
         then 0 else 1) :=
      lt_of_le_of_ne (probSum_nonneg _ _ _ _) (Ne.symm hns)
    have hsqrt : Real.sqrt _ * Real.sqrt _ = _ := Real.mul_self_sqrt hpos.le
    rw [one_div, ← mul_inv, hsqrt, inv_mul_cancel₀ hns]

/-- Witness for C3: measuring qubit 0 of the definite state `|0⟩` with draw
`r = 1/2` collapses to an array that is zero off the outcome and has total
squared norm exactly 1. -/
theorem measureQubit_collapses_witness :
    ∃ m : MeasurementResult,
      (measureQubit ⟨1, [cAmp 1, cAmp 0]⟩ 0 (1 / 2)).1 = .ok m ∧
      (∀ j < 2 ^ 1, bitValueOf j (2 ^ 0) ≠ m.resultBit →
        (measureQubit ⟨1, [cAmp 1, cAmp 0]⟩ 0 (1 / 2)).2.amplitudes.getD j (cAmp 0 0) =
          cAmp 0 0) ∧
      (probSum [cAmp 1, cAmp 0] (2 ^ 1) (2 ^ 0) m.resultBit ≠ 0 →
        sumSq (measureQubit ⟨1, [cAmp 1, cAmp 0]⟩ 0 (1 / 2)).2.amplitudes = 1) :=
  measureQubit_collapses ⟨1, [cAmp 1, cAmp 0]⟩ 0 (1 / 2) (by decide) (by rfl)

/-! ## C4: a unitary single-qubit gate preserves the total probability -/

/-- The 2×2 matrix has orthonormal columns (`M†M = I`), stated over the
mathematical complex numbers. -/
def IsUnitary2 (m : ComplexMatrix) : Prop :=
  (starRingEnd ℂ) (toC (matEntry m 0 0)) * toC (matEntry m 0 0) +
      (starRingEnd ℂ) (toC (matEntry m 1 0)) * toC (matEntry m 1 0) = 1 ∧
  (starRingEnd ℂ) (toC (matEntry m 0 1)) * toC (matEntry m 0 1) +
      (starRingEnd ℂ) (toC (matEntry m 1 1)) * toC (matEntry m 1 1) = 1 ∧
  (starRingEnd ℂ) (toC (matEntry m 0 0)) * toC (matEntry m 0 1) +
      (starRingEnd ℂ) (toC (matEntry m 1 0)) * toC (matEntry m 1 1) = 0

/-- A 2×2 matrix with orthonormal columns preserves `|z0|² + |z1|²`. -/
theorem unitary_pair_normSq (m00 m01 m10 m11 z0 z1 : ℂ)
    (h1 : (starRingEnd ℂ) m00 * m00 + (starRingEnd ℂ) m10 * m10 = 1)
    (h2 : (starRingEnd ℂ) m01 * m01 + (starRingEnd ℂ) m11 * m11 = 1)
    (h3 : (starRingEnd ℂ) m00 * m01 + (starRingEnd ℂ) m10 * m11 = 0) :
    Complex.normSq (m00 * z0 + m01 * z1) + Complex.normSq (m10 * z0 + m11 * z1) =
      Complex.normSq z0 + Complex.normSq z1 := by
  have h4 := congrArg (starRingEnd ℂ) h3
  simp only [map_add, map_mul, Complex.conj_conj, map_zero, map_one] at h4
  have key : ((Complex.normSq (m00 * z0 + m01 * z1) +
        Complex.normSq (m10 * z0 + m11 * z1) : ℝ) : ℂ) =
      ((Complex.normSq z0 + Complex.normSq z1 : ℝ) : ℂ) := by
    push_cast
    rw [← Complex.mul_conj, ← Complex.mul_conj, ← Complex.mul_conj, ← Complex.mul_conj]
    simp only [map_add, map_mul]
    linear_combination (z0 * (starRingEnd ℂ) z0) * h1 + (z1 * (starRingEnd ℂ) z1) * h2 +
      ((starRingEnd ℂ) z0 * z1) * h3 + (z0 * (starRingEnd ℂ) z1) * h4
  exact_mod_cast key

/-- The pair lemma transported to the embedded complex arithmetic. -/
theorem pair_ampNormSq_preserved (m00 m01 m10 m11 a0 a1 : ComplexAmplitude)
    (h1 : (starRingEnd ℂ) (toC m00) * toC m00 + (starRingEnd ℂ) (toC m10) * toC m10 = 1)
    (h2 : (starRingEnd ℂ) (toC m01) * toC m01 + (starRingEnd ℂ) (toC m11) * toC m11 = 1)
    (h3 : (starRingEnd ℂ) (toC m00) * toC m01 + (starRingEnd ℂ) (toC m10) * toC m11 = 0) :
    ampNormSq (complexAdd (complexMultiply m00 a0) (complexMultiply m01 a1)) +
      ampNormSq (complexAdd (complexMultiply m10 a0) (complexMultiply m11 a1)) =
      ampNormSq a0 + ampNormSq a1 := by
  rw [ampNormSq_eq_normSq_toC, ampNormSq_eq_normSq_toC, ampNormSq_eq_normSq_toC,
    ampNormSq_eq_normSq_toC, toC_complexAdd, toC_complexAdd, toC_complexMultiply,
    toC_complexMultiply, toC_complexMultiply, toC_complexMultiply]
  exact unitary_pair_normSq _ _ _ _ _ _ h1 h2 h3

theorem and_two_pow_eq_zero_iff (i c : ℕ) :
    i &&& 2 ^ c = 0 ↔ i.testBit c = false := by
  rw [Nat.and_two_pow]
  rcases h : i.testBit c <;> simp [h]

/-- For an index with the qubit bit clear, OR-ing and XOR-ing the mask agree. -/
theorem or_mask_eq_xor_mask (i q : ℕ) (h : i &&& 2 ^ q = 0) :
    i ||| 2 ^ q = i ^^^ 2 ^ q := by
  have hbit : i.testBit q = false := (and_two_pow_eq_zero_iff i q).mp h
  apply Nat.eq_of_testBit_eq
  intro j
  by_cases hj : j = q
  · subst hj
    simp [Nat.testBit_or, Nat.testBit_xor, hbit, Nat.testBit_two_pow_self]
  · simp [Nat.testBit_or, Nat.testBit_xor, Nat.testBit_two_pow_of_ne (Ne.symm hj)]

/-- Reindex a sum over the bit-set half of the hypercube onto the bit-clear
half through XOR with the mask. -/
theorem sum_filter_xor_reindex (n q : ℕ) (hq : q < n) (g : ℕ → ℝ) :
    ∑ i ∈ (Finset.range (2 ^ n)).filter (fun i => ¬ i &&& 2 ^ q = 0), g i =
      ∑ i ∈ (Finset.range (2 ^ n)).filter (fun i => i &&& 2 ^ q = 0), g (i ^^^ 2 ^ q) := by
  have hmask : (2 : ℕ) ^ q < 2 ^ n := Nat.pow_lt_pow_right one_lt_two hq
  refine Finset.sum_nbij' (fun i => i ^^^ 2 ^ q) (fun i => i ^^^ 2 ^ q) ?_ ?_ ?_ ?_ ?_
  · intro a ha
    dsimp only
    rw [Finset.mem_filter, Finset.mem_range] at ha ⊢
    refine ⟨Nat.xor_lt_two_pow ha.1 hmask, ?_⟩
    have hbit := (and_two_pow_ne_zero_iff a q).mp ha.2
    rw [and_two_pow_eq_zero_iff, Nat.testBit_xor, hbit, Nat.testBit_two_pow_self]
    rfl
  · intro a ha
    dsimp only
    rw [Finset.mem_filter, Finset.mem_range] at ha ⊢
    refine ⟨Nat.xor_lt_two_pow ha.1 hmask, ?_⟩
    have hbit := (and_two_pow_eq_zero_iff a q).mp ha.2
    rw [← Ne, and_two_pow_ne_zero_iff, Nat.testBit_xor, hbit, Nat.testBit_two_pow_self]
    rfl
  · intro a _
    exact Nat.xor_cancel_right _ _
  · intro a _
    exact Nat.xor_cancel_right _ _
  · intro a _
    dsimp only
    rw [Nat.xor_cancel_right]

theorem length_gateNewAmps (amplitudes : List ComplexAmplitude) (d mask : ℕ)
    (m00 m01 m10 m11 : ComplexAmplitude) :
    (gateNewAmps amplitudes d mask m00 m01 m10 m11).length = d := by
  simp [gateNewAmps]

theorem getD_gateNewAmps (amplitudes : List ComplexAmplitude) (d mask : ℕ)
    (m00 m01 m10 m11 : ComplexAmplitude) (j : ℕ) (hj : j < d) :
    (gateNewAmps amplitudes d mask m00 m01 m10 m11).getD j (cAmp 0 0) =
      if j &&& mask = 0 then
        complexAdd (complexMultiply m00 (amplitudes.getD j (cAmp 0 0)))
                   (complexMultiply m01 (amplitudes.getD (j ||| mask) (cAmp 0 0)))
      else
        complexAdd (complexMultiply m10 (amplitudes.getD (j ^^^ mask) (cAmp 0 0)))
                   (complexMultiply m11 (amplitudes.getD j (cAmp 0 0))) := by
  simp [gateNewAmps, List.getD_eq_getElem?_getD, List.getElem?_ofFn, hj]

/-- On a valid call (2×2 matrix, in-range qubit) the gate application
succeeds and replaces the amplitudes by `gateNewAmps`. -/
theorem applySingleQubitGate_ok_eq (s : GlobalStateVector) (q : ℕ) (m : ComplexMatrix)
    (hrows : m.rows = 2) (hcols : m.cols = 2) (hq : q < s.numberOfQubits) :
    applySingleQubitGateToGlobalState s q m =
      (.ok (), { numberOfQubits := s.numberOfQubits
                 amplitudes := gateNewAmps s.amplitudes (2 ^ s.numberOfQubits) (2 ^ q)
                   (matEntry m 0 0) (matEntry m 0 1) (matEntry m 1 0) (matEntry m 1 1) }) := by
  have hn : ¬ q ≥ s.numberOfQubits := not_le.mpr hq
  simp only [applySingleQubitGateToGlobalState, hrows, hcols, hn, ne_eq,
    not_true_eq_false, or_self, if_false, ite_false, not_false_eq_true]

/-- Decompose a sum over all of `[0, 2^n)` into a sum over the bit-`q`-clear
indices of paired terms. -/
theorem sum_pairs (n q : ℕ) (hq : q < n) (g : ℕ → ℝ) :
    ∑ i ∈ Finset.range (2 ^ n), g i =
      ∑ i ∈ (Finset.range (2 ^ n)).filter (fun i => i &&& 2 ^ q = 0),
        (g i + g (i ^^^ 2 ^ q)) := by
  rw [← Finset.sum_filter_add_sum_filter_not (Finset.range (2 ^ n))
      (fun i => i &&& 2 ^ q = 0) g,
    sum_filter_xor_reindex n q hq g, ← Finset.sum_add_distrib]

/--
C4: applying a 2×2 unitary matrix to an in-range qubit preserves the total
probability exactly (over exact reals): the sum of squared magnitudes after
`applySingleQubitGateToGlobalState` equals the sum before, so the norm-1
invariant of `GlobalStateVector` is preserved by gate application.
-/
theorem applySingleQubitGate_preserves_norm (s : GlobalStateVector) (q : ℕ)
    (m : ComplexMatrix) (hrows : m.rows = 2) (hcols : m.cols = 2)
    (hq : q < s.numberOfQubits) (hlen : s.amplitudes.length = 2 ^ s.numberOfQubits)
    (hu : IsUnitary2 m) :
    sumSq (applySingleQubitGateToGlobalState s q m).2.amplitudes = sumSq s.amplitudes := by
  obtain ⟨h1, h2, h3⟩ := hu
  rw [applySingleQubitGate_ok_eq s q m hrows hcols hq]
  dsimp only
  rw [sumSq_eq_sum_range, sumSq_eq_sum_range, length_gateNewAmps, hlen,
    sum_pairs s.numberOfQubits q hq, sum_pairs s.numberOfQubits q hq]
  refine Finset.sum_congr rfl fun i hi => ?_
  rw [Finset.mem_filter, Finset.mem_range] at hi
  obtain ⟨hilt, hibit⟩ := hi
  have hmask : (2 : ℕ) ^ q < 2 ^ s.numberOfQubits := Nat.pow_lt_pow_right one_lt_two hq
  have hxlt : i ^^^ 2 ^ q < 2 ^ s.numberOfQubits := Nat.xor_lt_two_pow hilt hmask
  have hxbit : ¬ (i ^^^ 2 ^ q) &&& 2 ^ q = 0 := by
    have hbit := (and_two_pow_eq_zero_iff i q).mp hibit
    rw [← Ne, and_two_pow_ne_zero_iff, Nat.testBit_xor, hbit, Nat.testBit_two_pow_self]
    rfl
  rw [getD_gateNewAmps _ _ _ _ _ _ _ i hilt, getD_gateNewAmps _ _ _ _ _ _ _ _ hxlt,
    if_pos hibit, if_neg hxbit, Nat.xor_cancel_right, or_mask_eq_xor_mask i q hibit]
  exact pair_ampNormSq_preserved _ _ _ _ _ _ h1 h2 h3

/-- The Pauli-X gate has orthonormal columns. -/
theorem isUnitary2_XGate : IsUnitary2 XGate := by
  refine ⟨?_, ?_, ?_⟩ <;>
    simp [IsUnitary2, XGate, matEntry, toC, cAmp, Complex.ext_iff]

/-- Witness for C4: applying the (unitary) Pauli-X gate to qubit 0 of a
concrete unnormalized 1-qubit state keeps the total probability. -/
theorem applySingleQubitGate_preserves_norm_witness :
    sumSq (applySingleQubitGateToGlobalState ⟨1, [cAmp 1, cAmp 2]⟩ 0 XGate).2.amplitudes =
      sumSq [cAmp 1, cAmp 2] :=
  applySingleQubitGate_preserves_norm ⟨1, [cAmp 1, cAmp 2]⟩ 0 XGate rfl rfl
    (by decide) (by rfl) isUnitary2_XGate

/-! ## C7: the initial-state builder produces a normalized tensor product -/

theorem toC_foldl_mult (f : ℕ → ComplexAmplitude) (l : List ℕ) (a : ComplexAmplitude) :
    toC (l.foldl (fun amp q => complexMultiply amp (f q)) a) =
      toC a * (l.map fun q => toC (f q)).prod := by
  induction l generalizing a with
  | nil => simp
  | cons q l ih =>
    rw [List.foldl_cons, ih, List.map_cons, List.prod_cons, toC_complexMultiply]
    ring

theorem ampNormSq_foldl_mult (f : ℕ → ComplexAmplitude) (l : List ℕ) (a : ComplexAmplitude) :
    ampNormSq (l.foldl (fun amp q => complexMultiply amp (f q)) a) =
      ampNormSq a * (l.map fun q => ampNormSq (f q)).prod := by
  induction l generalizing a with
  | nil => simp
  | cons q l ih =>
    rw [List.foldl_cons, ih, List.map_cons, List.prod_cons, ampNormSq_complexMultiply]
    ring

theorem range_map_prod {M : Type} [CommMonoid M] (n : ℕ) (h : ℕ → M) :
    ((List.range n).map h).prod = ∏ q ∈ Finset.range n, h q := by
  induction n with
  | zero => simp
  | succ n ih =>
    rw [List.range_succ, List.map_append, List.prod_append, Finset.prod_range_succ, ih]
    simp

/-- `((index >> q) & 1)` as truncated division: `index / 2^q % 2`. -/
theorem bitAt_eq_div_mod (index q : ℕ) : bitAt index q = index / 2 ^ q % 2 := by
  rw [bitAt, Nat.shiftRight_eq_div_pow, Nat.and_one_is_mod]

theorem bitAt_high_of_lt (i n : ℕ) (hi : i < 2 ^ n) : bitAt i n = 0 := by
  rw [bitAt_eq_div_mod, Nat.div_eq_of_lt hi]

theorem bitAt_high_of_add (i n : ℕ) (hi : i < 2 ^ n) : bitAt (2 ^ n + i) n = 1 := by
  rw [bitAt_eq_div_mod, add_comm, Nat.add_div_right _ (Nat.pos_pow_of_pos n (by norm_num)),
    Nat.div_eq_of_lt hi]

theorem bitAt_low_of_add (i n q : ℕ) (hq : q < n) : bitAt (2 ^ n + i) q = bitAt i q := by
  rw [bitAt_eq_div_mod, bitAt_eq_div_mod]
  have hsplit : (2 : ℕ) ^ n = 2 ^ (n - q - 1) * 2 * 2 ^ q := by
    rw [mul_assoc, ← pow_succ', ← pow_add]
    congr 1
    omega
  rw [add_comm, hsplit, Nat.add_mul_div_right _ _ (Nat.pos_pow_of_pos q (by norm_num)),
    Nat.add_mul_mod_self_right]

/-- Sum over the hypercube of a product over bits factorizes. -/
theorem sum_prod_bitAt (n : ℕ) (g : ℕ → ℕ → ℝ) :
    ∑ i ∈ Finset.range (2 ^ n), ∏ q ∈ Finset.range n, g q (bitAt i q) =
      ∏ q ∈ Finset.range n, (g q 0 + g q 1) := by
  induction n with
  | zero => simp
  | succ n ih =>
    have h2 : (2 : ℕ) ^ (n + 1) = 2 ^ n + 2 ^ n := by
      rw [pow_succ]
      ring
    rw [h2, Finset.sum_range_add]
    have hfirst : ∀ i ∈ Finset.range (2 ^ n),
        ∏ q ∈ Finset.range (n + 1), g q (bitAt i q) =
          (∏ q ∈ Finset.range n, g q (bitAt i q)) * g n 0 := by
      intro i hi
      rw [Finset.prod_range_succ, bitAt_high_of_lt i n (Finset.mem_range.mp hi)]
    have hsecond : ∀ i ∈ Finset.range (2 ^ n),
        ∏ q ∈ Finset.range (n + 1), g q (bitAt (2 ^ n + i) q) =
          (∏ q ∈ Finset.range n, g q (bitAt i q)) * g n 1 := by
      intro i hi
      rw [Finset.prod_range_succ, bitAt_high_of_add i n (Finset.mem_range.mp hi)]
      congr 1
      exact Finset.prod_congr rfl fun q hq =>
        congrArg (g q) (bitAt_low_of_add i n q (Finset.mem_range.mp hq))
    rw [Finset.sum_congr rfl hfirst, Finset.sum_congr rfl hsecond,
      ← Finset.sum_mul, ← Finset.sum_mul, ih, Finset.prod_range_succ]
    ring

/-- Each per-qubit local state carries unit probability:
`|α|² + |β|² = cos²(θ/2) + sin²(θ/2)(cos²φ + sin²φ) = 1`. -/
theorem localQubitState_normSq (input : QubitInput) :
    ampNormSq (localQubitState input).1 + ampNormSq (localQubitState input).2 = 1 := by
  simp only [localQubitState, ampNormSq]
  have h1 := Real.sin_sq_add_cos_sq (input.theta / 2)
  have h2 := Real.sin_sq_add_cos_sq input.phi
  nlinarith [h1, h2]

/--
C7: for every qubit count and Bloch-angle list (missing entries defaulting
to `theta = 0, phi = 0`), the builder produces `2^nQubits` amplitudes, the
amplitude at each basis index is the product over qubits `q` of `alpha`
when bit `q` of the index is 0 and `beta` otherwise (qubit 0 = bit 0), and
the total probability is exactly 1.
-/
theorem foldl_mult_congr (f1 f2 : ℕ → ComplexAmplitude) (l : List ℕ)
    (h : ∀ q ∈ l, f1 q = f2 q) (a : ComplexAmplitude) :
    l.foldl (fun amp q => complexMultiply amp (f1 q)) a =
      l.foldl (fun amp q => complexMultiply amp (f2 q)) a := by
  induction l generalizing a with
  | nil => rfl
  | cons q l ih =>
    rw [List.foldl_cons, List.foldl_cons, h q (List.mem_cons_self q l),
      ih fun p hp => h p (List.mem_cons_of_mem q hp)]

theorem toC_cAmp_one : toC (cAmp 1 0) = 1 := by
  simp [toC, cAmp, Complex.ext_iff]

theorem ampNormSq_cAmp_one : ampNormSq (cAmp 1 0) = 1 := by
  simp [ampNormSq, cAmp]

theorem buildInitial_tensor_normalized (nQubits : ℕ) (qubitInputs : List QubitInput) :
    (buildInitialGlobalStateFromInputs nQubits qubitInputs).amplitudes.length =
      2 ^ nQubits ∧
    (∀ index < 2 ^ nQubits,
      toC ((buildInitialGlobalStateFromInputs nQubits qubitInputs).amplitudes.getD index
          (cAmp 0 0)) =
        ∏ q ∈ Finset.range nQubits,
          (if bitAt index q = 0
           then toC (localQubitState (qubitInputs.getD q { theta := 0, phi := 0 })).1
           else toC (localQubitState (qubitInputs.getD q { theta := 0, phi := 0 })).2)) ∧
    sumSq (buildInitialGlobalStateFromInputs nQubits qubitInputs).amplitudes = 1 := by
  have hlocal : ∀ q < nQubits,
      (List.ofFn (n := nQubits) fun q2 =>
          localQubitState (qubitInputs.getD q2.val { theta := 0, phi := 0 })).getD q
        (cAmp 1 0, cAmp 0 0) =
        localQubitState (qubitInputs.getD q { theta := 0, phi := 0 }) := by
    intro q hq
    simp [List.getD_eq_getElem?_getD, List.getElem?_ofFn, List.ofFnNthVal, hq]
  have hgetD : ∀ index, index < 2 ^ nQubits →
      (buildInitialGlobalStateFromInputs nQubits qubitInputs).amplitudes.getD index
          (cAmp 0 0) =
        (List.range nQubits).foldl
          (fun amp q =>
            complexMultiply amp
              (if bitAt index q = 0
               then (localQubitState (qubitInputs.getD q { theta := 0, phi := 0 })).1
               else (localQubitState (qubitInputs.getD q { theta := 0, phi := 0 })).2))
          (cAmp 1 0) := by
    intro index hindex
    simp only [buildInitialGlobalStateFromInputs]
    rw [List.getD_eq_getElem?_getD, List.getElem?_ofFn]
    simp only [List.ofFnNthVal, hindex, dif_pos, Option.getD_some]
    exact foldl_mult_congr _ _ (List.range nQubits)
      (fun q hq => by rw [hlocal q (List.mem_range.mp hq)]) (cAmp 1 0)
  have hlength : (buildInitialGlobalStateFromInputs nQubits qubitInputs).amplitudes.length =
      2 ^ nQubits := by
    simp [buildInitialGlobalStateFromInputs]
  refine ⟨hlength, ?_, ?_⟩
  · intro index hindex
    rw [hgetD index hindex, toC_foldl_mult, range_map_prod, toC_cAmp_one, one_mul]
    exact Finset.prod_congr rfl fun q _ => apply_ite toC _ _ _
  · rw [sumSq_eq_sum_range, hlength]
    have hterm : ∀ i ∈ Finset.range (2 ^ nQubits),
        ampNormSq ((buildInitialGlobalStateFromInputs nQubits qubitInputs).amplitudes.getD i
            (cAmp 0 0)) =
          ∏ q ∈ Finset.range nQubits,
            (fun q2 b =>
              if b = 0
              then ampNormSq (localQubitState (qubitInputs.getD q2 { theta := 0, phi := 0 })).1
              else ampNormSq (localQubitState (qubitInputs.getD q2 { theta := 0, phi := 0 })).2)
              q (bitAt i q) := by
      intro i hi
      rw [hgetD i (Finset.mem_range.mp hi), ampNormSq_foldl_mult, range_map_prod,
        ampNormSq_cAmp_one, one_mul]
      exact Finset.prod_congr rfl fun q _ => apply_ite ampNormSq _ _ _
    rw [Finset.sum_congr rfl hterm]
    refine (sum_prod_bitAt nQubits (fun q2 b =>
      if b = 0
      then ampNormSq (localQubitState (qubitInputs.getD q2 { theta := 0, phi := 0 })).1
      else ampNormSq (localQubitState (qubitInputs.getD q2 { theta := 0, phi := 0 })).2)).trans ?_
    refine Finset.prod_eq_one fun q _ => ?_
    simpa using localQubitState_normSq (qubitInputs.getD q { theta := 0, phi := 0 })

/-- Witness for C7: the builder with one qubit and no inputs (defaulting to
`theta = 0, phi = 0`, i.e. `|0⟩`) yields 2 amplitudes, the tensor-product
value at index 0, and total probability exactly 1. -/
theorem buildInitial_tensor_normalized_witness :
    (buildInitialGlobalStateFromInputs 1 []).amplitudes.length = 2 ^ 1 ∧
    toC ((buildInitialGlobalStateFromInputs 1 []).amplitudes.getD 0 (cAmp 0 0)) =
      ∏ q ∈ Finset.range 1,
        (if bitAt 0 q = 0
         then toC (localQubitState (([] : List QubitInput).getD q { theta := 0, phi := 0 })).1
         else toC (localQubitState (([] : List QubitInput).getD q { theta := 0, phi := 0 })).2) ∧
    sumSq (buildInitialGlobalStateFromInputs 1 []).amplitudes = 1 :=
  ⟨(buildInitial_tensor_normalized 1 []).1,
   (buildInitial_tensor_normalized 1 []).2.1 0 (by decide),
   (buildInitial_tensor_normalized 1 []).2.2⟩

/-! ## C9: without MEASURE cells the run never consults the random stream -/

theorem runPhase3_no_measure (grid : List (List (Option GateCell))) (col : ℕ)
    (rng : ℕ → ℝ) (rows : List ℕ) (st : GlobalStateVector) (draws : ℕ)
    (h : ∀ row ∈ rows, ∀ cell, gridCell grid row col = some cell →
      cell.kind ≠ .MEASURE) :
    runPhase3 grid col rng rows st draws = .ok (st, draws) := by
  induction rows with
  | nil => rfl
  | cons row rows ih =>
    rw [runPhase3]
    rcases hcell : gridCell grid row col with _ | cell
    · exact ih fun r hr => h r (List.mem_cons_of_mem row hr)
    · dsimp only
      rw [if_neg (h row (List.mem_cons_self row rows) cell hcell)]
      exact ih fun r hr => h r (List.mem_cons_of_mem row hr)

/--
C9: a circuit containing no MEASURE cells never draws from the random
stream, so `simulateCircuitByColumn` returns the same snapshots for every
random stream: the measurement draw is the only source of nondeterminism.
-/
theorem simulate_no_measure_deterministic (circuit : Circuit)
    (initialState : GlobalStateVector) (rng1 rng2 : ℕ → ℝ)
    (h : ∀ row col cell, gridCell circuit.grid row col = some cell →
      cell.kind ≠ .MEASURE) :
    simulateCircuitByColumn circuit initialState rng1 =
      simulateCircuitByColumn circuit initialState rng2 := by
  unfold simulateCircuitByColumn
  generalize List.range circuit.nCols = cols
  generalize cloneGlobalStateVector initialState = st
  generalize (0 : ℕ) = draws
  generalize ([] : List GlobalStateVector) = acc
  induction cols generalizing st draws acc with
  | nil => rfl
  | cons col cols ih =>
    rw [simulateColumns, simulateColumns]
    rcases runPhase1 circuit.grid col (List.range circuit.nQubits) st with e | st1
    · rfl
    · dsimp only
      rcases runPhase2 circuit.grid col (List.range circuit.nQubits) st1 with e | st2
      · rfl
      · dsimp only
        rw [runPhase3_no_measure circuit.grid col rng1 _ st2 draws
            fun row _ => h row col,
          runPhase3_no_measure circuit.grid col rng2 _ st2 draws
            fun row _ => h row col]
        exact ih st2 draws _

/-- Witness for C9: a one-column, one-qubit circuit holding a single X gate
(no MEASURE) simulates identically under two different random streams. -/
theorem simulate_no_measure_deterministic_witness :
    simulateCircuitByColumn
        { nQubits := 1, nCols := 1
          grid := [[some { kind := .X, row := 0, col := 0 }]] }
        ⟨1, [cAmp 1, cAmp 0]⟩ (fun _ => 0) =
      simulateCircuitByColumn
        { nQubits := 1, nCols := 1
          grid := [[some { kind := .X, row := 0, col := 0 }]] }
        ⟨1, [cAmp 1, cAmp 0]⟩ (fun _ => 1 / 2) := by
  apply simulate_no_measure_deterministic
  intro row col cell hc
  rcases row with _ | row
  · rcases col with _ | col
    · simp only [gridCell, List.getD_cons_zero] at hc
      rw [← Option.some_inj.mp hc]
      decide
    · simp [gridCell, List.getD_cons_succ, List.getD_nil] at hc
  · simp [gridCell, List.getD_cons_succ, List.getD_nil] at hc

/-! ## C6: the Bell-state scenario -/

/-- In the value model a deep clone is the identity. -/
theorem cloneGlobalStateVector_eq (s : GlobalStateVector) :
    cloneGlobalStateVector s = s := by
  cases s with
  | mk n amps =>
    simp only [cloneGlobalStateVector]
    congr 1
    have hid : (fun amp : ComplexAmplitude =>
        ({ real := amp.real, imaginary := amp.imaginary } : ComplexAmplitude)) = id := by
      funext a
      cases a
      rfl
    rw [hid, List.map_id]

/--
C6: on the 2-qubit circuit with H on qubit 0 in column 0 and CNOT
(control row 0, target row 1) in column 1, starting from `|00⟩`, the
column-1 snapshot is the Bell state: amplitudes `(1/√2, 0)` at indices 0
and 3 and exactly `(0, 0)` at indices 1 and 2.
-/
theorem simulate_bell_circuit :
    simulateCircuitByColumn
        { nQubits := 2, nCols := 2
          grid := [[some { kind := .H, row := 0, col := 0 },
                    some { kind := .CNOT, row := 0, col := 1
                           hasTarget := some true, targetRow := some 1 }],
                   [none, none]] }
        ⟨2, [cAmp 1, cAmp 0, cAmp 0, cAmp 0]⟩ (fun _ => 0) =
      .ok [⟨2, [cAmp (1 / Real.sqrt 2), cAmp (1 / Real.sqrt 2), cAmp 0, cAmp 0]⟩,
           ⟨2, [cAmp (1 / Real.sqrt 2), cAmp 0, cAmp 0, cAmp (1 / Real.sqrt 2)]⟩] := by
  have hr2 : List.range 2 = [0, 1] := rfl
  have hr4 : List.range 4 = [0, 1, 2, 3] := rfl
  simp only [simulateCircuitByColumn, hr2, simulateColumns, runPhase1, runPhase2, runPhase3,
    gridCell, List.getD_cons_zero, List.getD_cons_succ, List.getD_nil,
    cloneGlobalStateVector_eq, getMatrixForGateKind, applySingleQubitGateToGlobalState,
    applyCNOTToGlobalState, gateNewAmps, matEntry, HadamardGate, cnotDest, hr4,
    complexAdd, complexMultiply, cAmp]
  have hn1 : (2 ||| 1 : ℕ) = 3 := rfl
  have hn2 : (3 ^^^ 1 : ℕ) = 2 := rfl
  have hn3 : (0 ||| 1 : ℕ) = 1 := rfl
  have hn4 : (1 ^^^ 1 : ℕ) = 0 := rfl
  have hn5 : (1 ^^^ 2 : ℕ) = 3 := rfl
  have hn6 : (3 ^^^ 2 : ℕ) = 1 := rfl
  have hn7 : (2 ^^^ 2 : ℕ) = 0 := rfl
  have hn8 : (0 ^^^ 2 : ℕ) = 2 := rfl
  simp +decide [hn1, hn2, hn3, hn4, hn5, hn6, hn7, hn8, List.ofFn_succ, List.set, List.foldl,
    List.replicate, complexAdd, complexMultiply, cAmp]

/-! ## C8: snapshots are independent deep copies (heap model)

The value model cannot see JS aliasing, so the deep-copy discipline of
`simulateCircuitByColumn` is verified against a second embedding of the same
source functions in which every JS object (each `ComplexAmplitude` literal
and each amplitudes array) lives at an address in an explicit bump-allocated
heap, arrays hold the addresses of their element objects, and in-place
mutation writes the store.  The source only ever stores *fresh* objects into
array slots (`amplitudes[i] = {...}`) and never writes a field of an
existing amplitude object, which this embedding reflects: element writes
allocate, only the working array's slot list is overwritten in place. -/

/-- A heap object: an amplitude object or an amplitudes array (the array
holds its elements' addresses, as a JS array of object references does). -/
inductive HVal where
  | amp (value : ComplexAmplitude)
  | arr (elems : List ℕ)

/-- Bump-allocated heap. -/
structure Heap where
  nextAddr : ℕ
  store : ℕ → HVal

/-- Allocate one object at a fresh address. -/
def halloc (h : Heap) (v : HVal) : ℕ × Heap :=
  (h.nextAddr,
   { nextAddr := h.nextAddr + 1
     store := fun a => if a = h.nextAddr then v else h.store a })

/-- Overwrite the object at an existing address (used only to replace the
working array's slot list, mirroring `amplitudes[i] = ...` loops). -/
def hwrite (h : Heap) (addr : ℕ) (v : HVal) : Heap :=
  { nextAddr := h.nextAddr
    store := fun a => if a = addr then v else h.store a }

/-- Read an amplitude object (a JS deref of an element reference). -/
def derefAmp (h : Heap) (a : ℕ) : ComplexAmplitude :=
  match h.store a with
  | .amp v => v
  | .arr _ => cAmp 0 0

/-- Read an array object. -/
def derefArr (h : Heap) (a : ℕ) : List ℕ :=
  match h.store a with
  | .arr l => l
  | .amp _ => []

/-- Allocate a fresh amplitude object for every value in the list. -/
def allocAmps (h : Heap) : List ComplexAmplitude → List ℕ × Heap
  | [] => ([], h)
  | v :: vs =>
    let (a, h1) := halloc h (.amp v)
    let (as, h2) := allocAmps h1 vs
    (a :: as, h2)

/-- A `GlobalStateVector` object: qubit count plus the address of its
amplitudes array. -/
structure HState where
  numberOfQubits : ℕ
  arrAddr : ℕ

/-- The values held by a state's amplitude array. -/
noncomputable def hAmpValues (h : Heap) (s : HState) : List ComplexAmplitude :=
  (derefArr h s.arrAddr).map (derefAmp h)

/-- Heap version of `cloneGlobalStateVector`: fresh objects for every
amplitude, then a fresh array holding them. -/
noncomputable def cloneGlobalStateVectorH (h : Heap) (s : HState) : HState × Heap :=
  let (as, h1) := allocAmps h (hAmpValues h s)
  let (arrAddr, h2) := halloc h1 (.arr as)
  ({ numberOfQubits := s.numberOfQubits, arrAddr := arrAddr }, h2)

/-- Heap version of `applySingleQubitGateToGlobalState`: after validation,
every slot of the (in-place mutated) working array ends up holding a fresh
amplitude object carrying the `gateNewAmps` value. -/
noncomputable def applySingleQubitGateToGlobalStateH (h : Heap) (s : HState)
    (qubitIndex : ℕ) (matrix : ComplexMatrix) :
    Except String Unit × Heap × HState :=
  if matrix.rows ≠ 2 ∨ matrix.cols ≠ 2 then
    (.error "applySingleQubitGateToGlobalState: matrix must be 2x2", h, s)
  else if qubitIndex ≥ s.numberOfQubits then
    (.error "applySingleQubitGateToGlobalState: qubitIndex out of range", h, s)
  else
    let vals := gateNewAmps (hAmpValues h s) (2 ^ s.numberOfQubits) (2 ^ qubitIndex)
      (matEntry matrix 0 0) (matEntry matrix 0 1) (matEntry matrix 1 0) (matEntry matrix 1 1)
    let (as, h1) := allocAmps h vals
    (.ok (), hwrite h1 s.arrAddr (.arr as), s)

/-- Heap version of `applyCNOTToGlobalState`: a fresh array of fresh
amplitude objects replaces the state object's array reference. -/
noncomputable def applyCNOTToGlobalStateH (h : Heap) (s : HState)
    (controlQubit targetQubit : ℕ) :
    Except String Unit × Heap × HState :=
  if controlQubit ≥ s.numberOfQubits then
    (.error "applyCNOTToGlobalState: controlQubit out of range", h, s)
  else if targetQubit ≥ s.numberOfQubits then
    (.error "applyCNOTToGlobalState: targetQubit out of range", h, s)
  else if controlQubit = targetQubit then
    (.error "applyCNOTToGlobalState: control and target must be different qubits", h, s)
  else
    let dimension := 2 ^ s.numberOfQubits
    let old := hAmpValues h s
    let vals := (List.range dimension).foldl
      (fun acc index =>
        acc.set (cnotDest (2 ^ controlQubit) (2 ^ targetQubit) index)
          (old.getD index (cAmp 0 0)))
      (List.replicate dimension (cAmp 0 0))
    let (as, h1) := allocAmps h vals
    let (arrAddr, h2) := halloc h1 (.arr as)
    (.ok (), h2, { numberOfQubits := s.numberOfQubits, arrAddr := arrAddr })

/-- Heap version of `measureQubit` (result record omitted — C8 is about the
array footprints): after validation, collapse and renormalization leave a
fresh amplitude object in every slot of the working array. -/
noncomputable def measureQubitH (h : Heap) (s : HState) (qubitIndex : ℕ) (r : ℝ) :
    Except String Unit × Heap × HState :=
  if qubitIndex ≥ s.numberOfQubits then
    (.error "measureQubit: qubitIndex out of range", h, s)
  else if (derefArr h s.arrAddr).length ≠ 2 ^ s.numberOfQubits then
    (.error "measureQubit: amplitudes length does not match", h, s)
  else
    let dimension := 2 ^ s.numberOfQubits
    let bitMask := 2 ^ qubitIndex
    let amplitudes := hAmpValues h s
    let probabilityZero := probSum amplitudes dimension bitMask 0
    let probabilityOne := probSum amplitudes dimension bitMask 1
    let totalProbability := probabilityZero + probabilityOne
    let safeTotal := if totalProbability = 0 then 1 else totalProbability
    let resultBit : ℕ := if r < probabilityZero / safeTotal then 0 else 1
    let normSquared := probSum amplitudes dimension bitMask resultBit
    let norm := if normSquared = 0 then 1 else Real.sqrt normSquared
    let vals := renormalizeAmps (collapseAmps amplitudes dimension bitMask resultBit) (1 / norm)
    let (as, h1) := allocAmps h vals
    (.ok (), hwrite h1 s.arrAddr (.arr as), s)

/-- Heap version of phase 1. -/
noncomputable def runPhase1H (grid : List (List (Option GateCell))) (col : ℕ) :
    List ℕ → Heap → HState → Except String (Heap × HState)
  | [], h, st => .ok (h, st)
  | row :: rows, h, st =>
    match gridCell grid row col with
    | none => runPhase1H grid col rows h st
    | some cell =>
      if cell.kind = .H ∨ cell.kind = .X ∨ cell.kind = .Y ∨ cell.kind = .Z then
        match getMatrixForGateKind cell.kind with
        | none => runPhase1H grid col rows h st
        | some matrix =>
          match applySingleQubitGateToGlobalStateH h st row matrix with
          | (.error e, _, _) => .error e
          | (.ok _, h', st') => runPhase1H grid col rows h' st'
      else runPhase1H grid col rows h st

/-- Heap version of phase 2. -/
noncomputable def runPhase2H (grid : List (List (Option GateCell))) (col : ℕ) :
    List ℕ → Heap → HState → Except String (Heap × HState)
  | [], h, st => .ok (h, st)
  | row :: rows, h, st =>
    match gridCell grid row col with
    | none => runPhase2H grid col rows h st
    | some cell =>
      if cell.kind = .CNOT ∧ cell.hasTarget = some true then
        match cell.targetRow with
        | none => runPhase2H grid col rows h st
        | some targetRow =>
          match applyCNOTToGlobalStateH h st row targetRow with
          | (.error e, _, _) => .error e
          | (.ok _, h', st') => runPhase2H grid col rows h' st'
      else runPhase2H grid col rows h st

/-- Heap version of phase 3. -/
noncomputable def runPhase3H (grid : List (List (Option GateCell))) (col : ℕ)
    (rng : ℕ → ℝ) :
    List ℕ → Heap → HState → ℕ → Except String (Heap × HState × ℕ)
  | [], h, st, draws => .ok (h, st, draws)
  | row :: rows, h, st, draws =>
    match gridCell grid row col with
    | none => runPhase3H grid col rng rows h st draws
    | some cell =>
      if cell.kind = .MEASURE then
        match measureQubitH h st row (rng draws) with
        | (.error e, _, _) => .error e
        | (.ok _, h', st') => runPhase3H grid col rng rows h' st' (draws + 1)
      else runPhase3H grid col rng rows h st draws

/-- Heap version of the column loop. -/
noncomputable def simulateColumnsH (grid : List (List (Option GateCell))) (nQubits : ℕ)
    (rng : ℕ → ℝ) :
    List ℕ → Heap → HState → ℕ → List HState → Except String (List HState × Heap)
  | [], h, _, _, columnStates => .ok (columnStates, h)
  | col :: cols, h, st, draws, columnStates =>
    match runPhase1H grid col (List.range nQubits) h st with
    | .error e => .error e
    | .ok (h1, st1) =>
      match runPhase2H grid col (List.range nQubits) h1 st1 with
      | .error e => .error e
      | .ok (h2, st2) =>
        match runPhase3H grid col rng (List.range nQubits) h2 st2 draws with
        | .error e => .error e
        | .ok (h3, st3, draws') =>
          let (snap, h4) := cloneGlobalStateVectorH h3 st3
          simulateColumnsH grid nQubits rng cols h4 st3 draws'
            (columnStates ++ [snap])

/-- Heap version of `simulateCircuitByColumn`: deep-copies the caller's
state, then runs the columns, snapshotting after each. -/
noncomputable def simulateCircuitByColumnH (circuit : Circuit) (initialState : HState)
    (rng : ℕ → ℝ) (h : Heap) : Except String (List HState × Heap) :=
  let (w0, h0) := cloneGlobalStateVectorH h initialState
  simulateColumnsH circuit.grid circuit.nQubits rng (List.range circuit.nCols) h0 w0 0 []

/-- The heap footprint of a state object: its array's address together with
the addresses of all its amplitude objects. -/
def region (h : Heap) (arrAddr : ℕ) : List ℕ :=
  arrAddr :: derefArr h arrAddr

theorem allocAmps_nextAddr_le (vs : List ComplexAmplitude) (h : Heap) :
    h.nextAddr ≤ (allocAmps h vs).2.nextAddr := by
  induction vs generalizing h with
  | nil => exact le_rfl
  | cons v vs ih =>
    have step := ih { nextAddr := h.nextAddr + 1
                      store := fun a => if a = h.nextAddr then HVal.amp v else h.store a }
    simp only [allocAmps, halloc]
    exact le_trans (Nat.le_succ _) step

theorem allocAmps_store_lt (vs : List ComplexAmplitude) (h : Heap) (a : ℕ)
    (ha : a < h.nextAddr) : (allocAmps h vs).2.store a = h.store a := by
  induction vs generalizing h with
  | nil => rfl
  | cons v vs ih =>
    have step := ih { nextAddr := h.nextAddr + 1
                      store := fun a2 => if a2 = h.nextAddr then HVal.amp v else h.store a2 }
      (lt_trans ha (Nat.lt_succ_self _))
    simp only [allocAmps, halloc]
    rw [step]
    simp [Nat.ne_of_lt ha]

theorem allocAmps_mem_range (vs : List ComplexAmplitude) (h : Heap) :
    ∀ a ∈ (allocAmps h vs).1, h.nextAddr ≤ a ∧ a < (allocAmps h vs).2.nextAddr := by
  induction vs generalizing h with
  | nil => simp [allocAmps]
  | cons v vs ih =>
    intro a ha
    have hnext := allocAmps_nextAddr_le vs
      { nextAddr := h.nextAddr + 1
        store := fun a2 => if a2 = h.nextAddr then HVal.amp v else h.store a2 }
    have hmem := ih { nextAddr := h.nextAddr + 1
                      store := fun a2 => if a2 = h.nextAddr then HVal.amp v else h.store a2 }
    simp only [allocAmps, halloc, List.mem_cons] at ha ⊢
    rcases ha with rfl | ha
    · exact ⟨le_rfl, lt_of_lt_of_le (Nat.lt_succ_self _) hnext⟩
    · obtain ⟨h1, h2⟩ := hmem a ha
      exact ⟨le_trans (Nat.le_succ _) h1, h2⟩

/-- `cloneGlobalStateVectorH` extends the heap, preserves every existing
object, and returns a state whose whole footprint is freshly allocated. -/
theorem cloneH_spec (h : Heap) (s : HState) :
    h.nextAddr ≤ (cloneGlobalStateVectorH h s).2.nextAddr ∧
    (∀ a, a < h.nextAddr → (cloneGlobalStateVectorH h s).2.store a = h.store a) ∧
    h.nextAddr ≤ (cloneGlobalStateVectorH h s).1.arrAddr ∧
    (cloneGlobalStateVectorH h s).1.arrAddr < (cloneGlobalStateVectorH h s).2.nextAddr ∧
    (∀ a ∈ derefArr (cloneGlobalStateVectorH h s).2 (cloneGlobalStateVectorH h s).1.arrAddr,
      h.nextAddr ≤ a ∧ a < (cloneGlobalStateVectorH h s).2.nextAddr) := by
  simp only [cloneGlobalStateVectorH, halloc]
  refine ⟨?_, ?_, ?_, ?_, ?_⟩
  · exact le_trans (allocAmps_nextAddr_le _ h) (Nat.le_succ _)
  · intro a ha
    have haa : a < (allocAmps h (hAmpValues h s)).2.nextAddr :=
      lt_of_lt_of_le ha (allocAmps_nextAddr_le _ h)
    simp only [Nat.ne_of_lt haa, if_false, ite_false]
    exact allocAmps_store_lt _ h a ha
  · exact allocAmps_nextAddr_le _ h
  · exact Nat.lt_succ_self _
  · intro a ha
    have hread : derefArr
        { nextAddr := (allocAmps h (hAmpValues h s)).2.nextAddr + 1
          store := fun a2 => if a2 = (allocAmps h (hAmpValues h s)).2.nextAddr
            then .arr (allocAmps h (hAmpValues h s)).1
            else (allocAmps h (hAmpValues h s)).2.store a2 }
        (allocAmps h (hAmpValues h s)).2.nextAddr = (allocAmps h (hAmpValues h s)).1 := by
      simp [derefArr]
    rw [hread] at ha
    obtain ⟨h1, h2⟩ := allocAmps_mem_range _ h a ha
    exact ⟨h1, lt_of_lt_of_le h2 (Nat.le_succ _)⟩

/-- What one successful engine operation may do to the heap: grow it, write
only at the working state's array address, and either keep the state's
array or point it at a fresh one. -/
def StepOK (h h' : Heap) (w w' : HState) : Prop :=
  h.nextAddr ≤ h'.nextAddr ∧
  (∀ a, a < h.nextAddr → a ≠ w.arrAddr → h'.store a = h.store a) ∧
  (w'.arrAddr = w.arrAddr ∨ (h.nextAddr ≤ w'.arrAddr ∧ w'.arrAddr < h'.nextAddr))

theorem stepOK_refl (h : Heap) (w : HState) : StepOK h h w w :=
  ⟨le_rfl, fun _ _ _ => rfl, .inl rfl⟩

theorem stepOK_trans {h1 h2 h3 : Heap} {w1 w2 w3 : HState}
    (s12 : StepOK h1 h2 w1 w2) (s23 : StepOK h2 h3 w2 w3) : StepOK h1 h3 w1 w3 := by
  obtain ⟨m12, p12, a12⟩ := s12
  obtain ⟨m23, p23, a23⟩ := s23
  refine ⟨le_trans m12 m23, ?_, ?_⟩
  · intro a ha hne
    have hne2 : a ≠ w2.arrAddr := by
      rcases a12 with heq | ⟨hge, -⟩
      · rw [heq]; exact hne
      · exact Nat.ne_of_lt (lt_of_lt_of_le ha hge)
    rw [p23 a (lt_of_lt_of_le ha m12) hne2, p12 a ha hne]
  · rcases a23 with heq | ⟨hge, hlt⟩
    · rcases a12 with heq2 | ⟨hge2, hlt2⟩
      · exact .inl (heq.trans heq2)
      · exact .inr ⟨heq ▸ hge2, heq ▸ lt_of_lt_of_le hlt2 m23⟩
    · exact .inr ⟨le_trans m12 hge, hlt⟩

theorem gateH_stepOK (h : Heap) (s : HState) (q : ℕ) (m : ComplexMatrix)
    (u : Unit) (h' : Heap) (s' : HState)
    (heq : applySingleQubitGateToGlobalStateH h s q m = (.ok u, h', s')) :
    StepOK h h' s s' := by
  simp only [applySingleQubitGateToGlobalStateH] at heq
  split_ifs at heq <;> simp only [Prod.mk.injEq] at heq
  · exact absurd heq.1 (by simp)
  · exact absurd heq.1 (by simp)
  · obtain ⟨-, hh, hs⟩ := heq
    subst hh hs
    refine ⟨?_, ?_, .inl rfl⟩
    · exact allocAmps_nextAddr_le _ h
    · intro a ha hne
      simp only [hwrite, hne, if_false, ite_false]
      exact allocAmps_store_lt _ h a ha

theorem measureH_stepOK (h : Heap) (s : HState) (q : ℕ) (r : ℝ)
    (u : Unit) (h' : Heap) (s' : HState)
    (heq : measureQubitH h s q r = (.ok u, h', s')) :
    StepOK h h' s s' := by
  simp only [measureQubitH] at heq
  split_ifs at heq <;> simp only [Prod.mk.injEq] at heq <;>
    first
    | exact Except.noConfusion heq.1
    | (obtain ⟨-, hh, hs⟩ := heq
       subst hh hs
       refine ⟨allocAmps_nextAddr_le _ h, ?_, .inl rfl⟩
       intro a ha hne
       simp only [hwrite, hne, if_false, ite_false]
       exact allocAmps_store_lt _ h a ha)

/-- Allocating fresh amplitude objects and a fresh array on top of them is a
legal engine step that retargets the state to the fresh array. -/
theorem allocThenArr_stepOK (h : Heap) (w : HState) (vals : List ComplexAmplitude) (n : ℕ) :
    StepOK h
      { nextAddr := (allocAmps h vals).2.nextAddr + 1
        store := fun a => if a = (allocAmps h vals).2.nextAddr
          then HVal.arr (allocAmps h vals).1 else (allocAmps h vals).2.store a }
      w { numberOfQubits := n, arrAddr := (allocAmps h vals).2.nextAddr } := by
  refine ⟨le_trans (allocAmps_nextAddr_le vals h) (Nat.le_succ _), ?_, ?_⟩
  · intro a ha hne
    have haa : a < (allocAmps h vals).2.nextAddr :=
      lt_of_lt_of_le ha (allocAmps_nextAddr_le vals h)
    simp only [Nat.ne_of_lt haa, if_false, ite_false]
    exact allocAmps_store_lt vals h a ha
  · exact .inr ⟨allocAmps_nextAddr_le vals h, Nat.lt_succ_self _⟩

theorem cnotH_stepOK (h : Heap) (s : HState) (c t : ℕ)
    (u : Unit) (h' : Heap) (s' : HState)
    (heq : applyCNOTToGlobalStateH h s c t = (.ok u, h', s')) :
    StepOK h h' s s' := by
  simp only [applyCNOTToGlobalStateH, halloc] at heq
  split_ifs at heq <;> simp only [Prod.mk.injEq] at heq <;>
    first
    | exact Except.noConfusion heq.1
    | (obtain ⟨-, hh, hs⟩ := heq
       subst hh hs
       exact allocThenArr_stepOK h s _ _)

theorem runPhase1H_stepOK (grid : List (List (Option GateCell))) (col : ℕ)
    (rows : List ℕ) : ∀ (h : Heap) (st : HState) (h' : Heap) (st' : HState),
    runPhase1H grid col rows h st = .ok (h', st') → StepOK h h' st st' := by
  induction rows with
  | nil =>
    intro h st h' st' heq
    rw [runPhase1H] at heq
    obtain ⟨rfl, rfl⟩ : h = h' ∧ st = st' := by
      simpa [Prod.mk.injEq] using heq
    exact stepOK_refl h st
  | cons row rows ih =>
    intro h st h' st' heq
    rw [runPhase1H] at heq
    rcases hcell : gridCell grid row col with _ | cell <;> rw [hcell] at heq <;>
      dsimp only at heq
    · exact ih h st h' st' heq
    · by_cases hu : cell.kind = .H ∨ cell.kind = .X ∨ cell.kind = .Y ∨ cell.kind = .Z
      · rw [if_pos hu] at heq
        rcases hmat : getMatrixForGateKind cell.kind with _ | matrix <;>
          rw [hmat] at heq <;> dsimp only at heq
        · exact ih h st h' st' heq
        · rcases happ : applySingleQubitGateToGlobalStateH h st row matrix with ⟨res, h2, st2⟩
          rw [happ] at heq
          rcases res with e | u <;> dsimp only at heq
          · exact Except.noConfusion heq
          · exact stepOK_trans (gateH_stepOK h st row matrix u h2 st2 happ)
              (ih h2 st2 h' st' heq)
      · rw [if_neg hu] at heq
        exact ih h st h' st' heq

theorem runPhase2H_stepOK (grid : List (List (Option GateCell))) (col : ℕ)
    (rows : List ℕ) : ∀ (h : Heap) (st : HState) (h' : Heap) (st' : HState),
    runPhase2H grid col rows h st = .ok (h', st') → StepOK h h' st st' := by
  induction rows with
  | nil =>
    intro h st h' st' heq
    rw [runPhase2H] at heq
    obtain ⟨rfl, rfl⟩ : h = h' ∧ st = st' := by
      simpa [Prod.mk.injEq] using heq
    exact stepOK_refl h st
  | cons row rows ih =>
    intro h st h' st' heq
    rw [runPhase2H] at heq
    rcases hcell : gridCell grid row col with _ | cell <;> rw [hcell] at heq <;>
      dsimp only at heq
    · exact ih h st h' st' heq
    · by_cases hc : cell.kind = .CNOT ∧ cell.hasTarget = some true
      · rw [if_pos hc] at heq
        rcases htr : cell.targetRow with _ | targetRow <;> rw [htr] at heq <;>
          dsimp only at heq
        · exact ih h st h' st' heq
        · rcases happ : applyCNOTToGlobalStateH h st row targetRow with ⟨res, h2, st2⟩
          rw [happ] at heq
          rcases res with e | u <;> dsimp only at heq
          · exact Except.noConfusion heq
          · exact stepOK_trans (cnotH_stepOK h st row targetRow u h2 st2 happ)
              (ih h2 st2 h' st' heq)
      · rw [if_neg hc] at heq
        exact ih h st h' st' heq

theorem runPhase3H_stepOK (grid : List (List (Option GateCell))) (col : ℕ)
    (rng : ℕ → ℝ) (rows : List ℕ) :
    ∀ (h : Heap) (st : HState) (draws : ℕ) (h' : Heap) (st' : HState) (draws' : ℕ),
    runPhase3H grid col rng rows h st draws = .ok (h', st', draws') →
      StepOK h h' st st' := by
  induction rows with
  | nil =>
    intro h st draws h' st' draws' heq
    rw [runPhase3H] at heq
    obtain ⟨rfl, rfl⟩ : h = h' ∧ st = st' := by
      have := heq
      simp only [Except.ok.injEq, Prod.mk.injEq] at this
      exact ⟨this.1, this.2.1⟩
    exact stepOK_refl h st
  | cons row rows ih =>
    intro h st draws h' st' draws' heq
    rw [runPhase3H] at heq
    rcases hcell : gridCell grid row col with _ | cell <;> rw [hcell] at heq <;>
      dsimp only at heq
    · exact ih h st draws h' st' draws' heq
    · by_cases hm : cell.kind = .MEASURE
      · rw [if_pos hm] at heq
        rcases hmeas : measureQubitH h st row (rng draws) with ⟨res, h2, st2⟩
        rw [hmeas] at heq
        rcases res with e | u <;> dsimp only at heq
        · exact Except.noConfusion heq
        · exact stepOK_trans (measureH_stepOK h st row (rng draws) u h2 st2 hmeas)
            (ih h2 st2 (draws + 1) h' st' draws' heq)
      · rw [if_neg hm] at heq
        exact ih h st draws h' st' draws' heq

theorem region_eq_of_store_eq {h h' : Heap} {addr : ℕ}
    (hst : h'.store addr = h.store addr) : region h' addr = region h addr := by
  simp [region, derefArr, hst]

/-- The driver invariant: the heap only grows, the caller's state is
value-frozen, the footprints of the caller's state and of every snapshot
taken so far are allocated, avoid the working array, and are pairwise
disjoint. -/
structure SimInv (h0 : Heap) (s0 : HState) (hk : Heap) (w : HState)
    (snaps : List HState) : Prop where
  mono : h0.nextAddr ≤ hk.nextAddr
  inputFrozen : ∀ a ∈ region h0 s0.arrAddr, hk.store a = h0.store a
  bound : ∀ s ∈ s0 :: snaps, ∀ a ∈ region hk s.arrAddr, a < hk.nextAddr
  wAvoid : ∀ s ∈ s0 :: snaps, w.arrAddr ∉ region hk s.arrAddr
  wFresh : w.arrAddr < hk.nextAddr
  disj : (s0 :: snaps).Pairwise fun t1 t2 =>
    ∀ a ∈ region hk t1.arrAddr, a ∉ region hk t2.arrAddr

theorem simInv_step {h0 : Heap} {s0 : HState} {hk : Heap} {w : HState}
    {snaps : List HState} {hk' : Heap} {w' : HState}
    (hwf : ∀ a ∈ region h0 s0.arrAddr, a < h0.nextAddr)
    (inv : SimInv h0 s0 hk w snaps) (hstep : StepOK hk hk' w w') :
    SimInv h0 s0 hk' w' snaps := by
  obtain ⟨hmono, hpres, hw'⟩ := hstep
  have hmemregion : ∀ s ∈ s0 :: snaps, region hk' s.arrAddr = region hk s.arrAddr := by
    intro s hs
    refine region_eq_of_store_eq (hpres s.arrAddr
      (inv.bound s hs s.arrAddr (List.mem_cons_self _ _)) ?_)
    intro hcontra
    exact inv.wAvoid s hs (hcontra ▸ List.mem_cons_self _ _)
  have hinputregion : region hk s0.arrAddr = region h0 s0.arrAddr :=
    region_eq_of_store_eq (inv.inputFrozen s0.arrAddr (List.mem_cons_self _ _))
  refine ⟨le_trans inv.mono hmono, ?_, ?_, ?_, ?_, ?_⟩
  · intro a ha
    have h1 : a < hk.nextAddr := lt_of_lt_of_le (hwf a ha) inv.mono
    have h2 : a ≠ w.arrAddr := by
      intro hcontra
      apply inv.wAvoid s0 (List.mem_cons_self _ _)
      rw [hinputregion]
      exact hcontra ▸ ha
    rw [hpres a h1 h2, inv.inputFrozen a ha]
  · intro s hs a hain
    rw [hmemregion s hs] at hain
    exact lt_of_lt_of_le (inv.bound s hs a hain) hmono
  · intro s hs hcontra
    rw [hmemregion s hs] at hcontra
    rcases hw' with heq | ⟨hge, -⟩
    · exact inv.wAvoid s hs (heq ▸ hcontra)
    · exact absurd (inv.bound s hs _ hcontra) (not_lt.mpr hge)
  · rcases hw' with heq | ⟨-, hlt⟩
    · exact heq ▸ lt_of_lt_of_le inv.wFresh hmono
    · exact hlt
  · refine inv.disj.imp_of_mem ?_
    intro t1 t2 ht1 ht2 hr a ha
    rw [hmemregion t1 ht1] at ha
    rw [hmemregion t2 ht2]
    exact hr a ha

theorem simInv_snap {h0 : Heap} {s0 : HState} {hk : Heap} {w : HState}
    {snaps : List HState}
    (hwf : ∀ a ∈ region h0 s0.arrAddr, a < h0.nextAddr)
    (inv : SimInv h0 s0 hk w snaps) (snap : HState) (hk' : Heap)
    (hc : cloneGlobalStateVectorH hk w = (snap, hk')) :
    SimInv h0 s0 hk' w (snaps ++ [snap]) := by
  obtain ⟨cmono, cpres, cge, clt, celem⟩ := cloneH_spec hk w
  rw [hc] at cmono cpres cge clt celem
  have hmemregion : ∀ s ∈ s0 :: snaps, region hk' s.arrAddr = region hk s.arrAddr :=
    fun s hs => region_eq_of_store_eq
      (cpres s.arrAddr (inv.bound s hs s.arrAddr (List.mem_cons_self _ _)))
  have hsnapregion : ∀ a ∈ region hk' snap.arrAddr, hk.nextAddr ≤ a ∧ a < hk'.nextAddr := by
    intro a ha
    rcases List.mem_cons.mp ha with rfl | ha2
    · exact ⟨cge, clt⟩
    · exact (celem a ha2).imp id id
  have hmem3 : ∀ s, s ∈ s0 :: (snaps ++ [snap]) → s ∈ s0 :: snaps ∨ s = snap := by
    intro s hs
    rcases List.mem_cons.mp hs with rfl | hs2
    · exact .inl (List.mem_cons_self _ _)
    · rcases List.mem_append.mp hs2 with hs3 | hs4
      · exact .inl (List.mem_cons_of_mem _ hs3)
      · exact .inr (List.mem_singleton.mp hs4)
  refine ⟨le_trans inv.mono cmono, ?_, ?_, ?_, ?_, ?_⟩
  · intro a ha
    rw [cpres a (lt_of_lt_of_le (hwf a ha) inv.mono), inv.inputFrozen a ha]
  · intro s hs a hain
    rcases hmem3 s hs with hold | rfl
    · rw [hmemregion s hold] at hain
      exact lt_of_lt_of_le (inv.bound s hold a hain) cmono
    · exact (hsnapregion a hain).2
  · intro s hs hcontra
    rcases hmem3 s hs with hold | rfl
    · rw [hmemregion s hold] at hcontra
      exact inv.wAvoid s hold hcontra
    · exact absurd (hsnapregion _ hcontra).1 (not_le.mpr inv.wFresh)
  · exact lt_of_lt_of_le inv.wFresh cmono
  · have hrw : s0 :: (snaps ++ [snap]) = (s0 :: snaps) ++ [snap] := rfl
    rw [hrw, List.pairwise_append]
    refine ⟨?_, List.pairwise_singleton _ _, ?_⟩
    · refine inv.disj.imp_of_mem ?_
      intro t1 t2 ht1 ht2 hr a ha
      rw [hmemregion t1 ht1] at ha
      rw [hmemregion t2 ht2]
      exact hr a ha
    · intro t ht b hb a ha
      rw [List.mem_singleton.mp hb]
      rw [hmemregion t ht] at ha
      intro hcontra
      exact absurd (lt_of_lt_of_le (inv.bound t ht a ha) (le_refl _))
        (not_lt.mpr (hsnapregion a hcontra).1)

theorem simulateColumnsH_inv (h0 : Heap) (s0 : HState)
    (hwf : ∀ a ∈ region h0 s0.arrAddr, a < h0.nextAddr)
    (grid : List (List (Option GateCell))) (nQ : ℕ) (rng : ℕ → ℝ) (cols : List ℕ) :
    ∀ (hk : Heap) (w : HState) (draws : ℕ) (snaps snapsOut : List HState) (hOut : Heap),
      SimInv h0 s0 hk w snaps →
      simulateColumnsH grid nQ rng cols hk w draws snaps = .ok (snapsOut, hOut) →
      ∃ wOut, SimInv h0 s0 hOut wOut snapsOut := by
  induction cols with
  | nil =>
    intro hk w draws snaps snapsOut hOut inv heq
    rw [simulateColumnsH] at heq
    obtain ⟨rfl, rfl⟩ : snaps = snapsOut ∧ hk = hOut := by
      simpa [Prod.mk.injEq] using heq
    exact ⟨w, inv⟩
  | cons col cols ih =>
    intro hk w draws snaps snapsOut hOut inv heq
    rw [simulateColumnsH] at heq
    rcases h1 : runPhase1H grid col (List.range nQ) hk w with e | ⟨hk1, w1⟩ <;>
      rw [h1] at heq <;> dsimp only at heq
    · exact Except.noConfusion heq
    · rcases h2 : runPhase2H grid col (List.range nQ) hk1 w1 with e | ⟨hk2, w2⟩ <;>
        rw [h2] at heq <;> dsimp only at heq
      · exact Except.noConfusion heq
      · rcases h3 : runPhase3H grid col rng (List.range nQ) hk2 w2 draws with
          e | ⟨hk3, w3, draws3⟩ <;> rw [h3] at heq <;> dsimp only at heq
        · exact Except.noConfusion heq
        · rcases hc : cloneGlobalStateVectorH hk3 w3 with ⟨snap, hk4⟩
          rw [hc] at heq
          dsimp only at heq
          have s1 := runPhase1H_stepOK grid col (List.range nQ) hk w hk1 w1 h1
          have s2 := runPhase2H_stepOK grid col (List.range nQ) hk1 w1 hk2 w2 h2
          have s3 := runPhase3H_stepOK grid col rng (List.range nQ) hk2 w2 draws
            hk3 w3 draws3 h3
          have inv2 := simInv_step hwf inv (stepOK_trans (stepOK_trans s1 s2) s3)
          have inv3 := simInv_snap hwf inv2 snap hk4 hc
          exact ih hk4 w3 draws3 (snaps ++ [snap]) snapsOut hOut inv3 heq

/--
C8: `simulateCircuitByColumn` deep-copies the caller's state and appends
deep-copied snapshots, so (in the explicit-heap embedding) a successful run
leaves every object of the caller's input state exactly as it was, and the
heap footprints of the input state and of all returned snapshots are
pairwise disjoint: mutating the working state in later columns, or mutating
any returned snapshot, cannot change any other snapshot or the caller's
input.
-/
theorem simulate_snapshots_independent (circuit : Circuit) (h0 : Heap) (s0 : HState)
    (rng : ℕ → ℝ) (hwf : ∀ a ∈ region h0 s0.arrAddr, a < h0.nextAddr)
    (snaps : List HState) (hOut : Heap)
    (heq : simulateCircuitByColumnH circuit s0 rng h0 = .ok (snaps, hOut)) :
    (∀ a ∈ region h0 s0.arrAddr, hOut.store a = h0.store a) ∧
    (s0 :: snaps).Pairwise (fun t1 t2 =>
      ∀ a ∈ region hOut t1.arrAddr, a ∉ region hOut t2.arrAddr) := by
  unfold simulateCircuitByColumnH at heq
  rcases hc : cloneGlobalStateVectorH h0 s0 with ⟨w0, hinit⟩
  rw [hc] at heq
  dsimp only at heq
  obtain ⟨cmono, cpres, cge, clt, celem⟩ := cloneH_spec h0 s0
  rw [hc] at cmono cpres cge clt celem
  have hregion0 : region hinit s0.arrAddr = region h0 s0.arrAddr :=
    region_eq_of_store_eq (cpres s0.arrAddr (hwf s0.arrAddr (List.mem_cons_self _ _)))
  have inv0 : SimInv h0 s0 hinit w0 [] := by
    refine ⟨cmono, fun a ha => cpres a (hwf a ha), ?_, ?_, clt, ?_⟩
    · intro s hs a hain
      rw [List.mem_singleton.mp hs, hregion0] at hain
      exact lt_of_lt_of_le (hwf a hain) cmono
    · intro s hs hcontra
      rw [List.mem_singleton.mp hs, hregion0] at hcontra
      exact absurd cge (not_le.mpr (hwf _ hcontra))
    · exact List.pairwise_singleton _ _
  obtain ⟨wOut, invOut⟩ := simulateColumnsH_inv h0 s0 hwf circuit.grid circuit.nQubits
    rng (List.range circuit.nCols) hinit w0 0 [] snaps hOut inv0 heq
  exact ⟨invOut.inputFrozen, invOut.disj⟩

/-- Constructor-level success test used to discharge the witness's success
hypothesis by kernel reduction. -/
def runSucceeded : Except String (List HState × Heap) → Bool
  | .ok _ => true
  | .error _ => false

/-- Witness for C8: a concrete one-column X-gate run over an explicit heap
(array object at address 0 holding amplitude objects 1 and 2) succeeds,
leaves the caller's objects untouched, and returns snapshots whose
footprints are disjoint from the input's and from each other. -/
theorem simulate_snapshots_independent_witness :
    ∃ (snaps : List HState) (hOut : Heap),
      simulateCircuitByColumnH
          { nQubits := 1, nCols := 1, grid := [[some { kind := .X, row := 0, col := 0 }]] }
          ⟨1, 0⟩ (fun _ => 0)
          ⟨3, fun a => if a = 0 then .arr [1, 2]
              else if a = 1 then .amp (cAmp 1) else .amp (cAmp 0)⟩ = .ok (snaps, hOut) ∧
      (∀ a ∈ region
          ⟨3, fun a => if a = 0 then .arr [1, 2]
              else if a = 1 then .amp (cAmp 1) else .amp (cAmp 0)⟩ 0,
        hOut.store a =
          (fun a => if a = 0 then HVal.arr [1, 2]
              else if a = 1 then HVal.amp (cAmp 1) else HVal.amp (cAmp 0)) a) ∧
      ((⟨1, 0⟩ : HState) :: snaps).Pairwise (fun t1 t2 =>
        ∀ a ∈ region hOut t1.arrAddr, a ∉ region hOut t2.arrAddr) := by
  have hok : runSucceeded
      (simulateCircuitByColumnH
        { nQubits := 1, nCols := 1, grid := [[some { kind := .X, row := 0, col := 0 }]] }
        ⟨1, 0⟩ (fun _ => 0)
        ⟨3, fun a => if a = 0 then .arr [1, 2]
            else if a = 1 then .amp (cAmp 1) else .amp (cAmp 0)⟩) = true := by
    rfl
  rcases hres : simulateCircuitByColumnH
      { nQubits := 1, nCols := 1, grid := [[some { kind := .X, row := 0, col := 0 }]] }
      ⟨1, 0⟩ (fun _ => 0)
      ⟨3, fun a => if a = 0 then .arr [1, 2]
          else if a = 1 then .amp (cAmp 1) else .amp (cAmp 0)⟩ with e | ⟨snaps, hOut⟩
  · rw [hres] at hok
    exact Bool.noConfusion hok
  · have hmain := simulate_snapshots_independent
      { nQubits := 1, nCols := 1, grid := [[some { kind := .X, row := 0, col := 0 }]] }
      ⟨3, fun a => if a = 0 then .arr [1, 2]
          else if a = 1 then .amp (cAmp 1) else .amp (cAmp 0)⟩
      ⟨1, 0⟩ (fun _ => 0) (by decide) snaps hOut hres
    exact ⟨snaps, hOut, rfl, hmain.1, hmain.2⟩

end QSim
